import Mathlib

/-!
Verification of `getfnative.py` (motbob/GetFnative).

This file gives a shallow embedding of the parts of the program the claims
talk about:

* the configuration normalization and the bounded-prefetch, in-order-delivery
  frame scheduler of `frames` (lines 62-138), modelled as a small-step
  transition system whose atomic steps are exactly the lock-protected
  critical sections of the Python code (`_request_next`, `_finished`,
  `_refill`, and one iteration of the consumer loop); futures are modelled
  by a done-flag per reorder entry, and the eventual outcome of the
  computation for index `i` is a fixed function `res i`;
* `descale_cropping_args` / `getw` (lines 151-182), with Python floats read
  as exact rationals and `math.floor` / `math.ceil` as `Int.floor` /
  `Int.ceil`;
* `to_float` (lines 142-148), with Python strings read as `List Char` and
  `eval` on the restricted character set `0123456789./` modelled as a
  left-associative chain of true divisions and floor divisions over `ℚ`
  (float rounding is abstracted to exact rational arithmetic).
-/

namespace GetFnative

/-! ## Configuration normalization (`frames`, getfnative.py lines 62-68) -/

/-- Effective prefetch: `if prefetch is None or prefetch <= 0: prefetch = vs.core.num_threads`. -/
def normalizePrefetch (numThreads : Int) (prefetch : Option Int) : Int :=
  match prefetch with
  | none => numThreads
  | some p => if p ≤ 0 then numThreads else p

/-- Effective backlog: `if backlog is None or backlog < 0: backlog = prefetch * 3
    elif backlog < prefetch: backlog = prefetch`, where `p` is the effective prefetch. -/
def normalizeBacklog (p : Int) (backlog : Option Int) : Int :=
  match backlog with
  | none => p * 3
  | some b => if b < 0 then p * 3 else if b < p then p else b

/-! ## `to_float` (getfnative.py lines 142-148)

Python strings are read as `List Char`.  The characters admitted by the
check `set(str_value) - set("0123456789./")` are digits, the dot and the
slash. -/

/-- Characters of the whitelist `"0123456789./"`. -/
def allowedChar (c : Char) : Bool := c.isDigit || c = '.' || c = '/'

/-- Splits a character list at every occurrence of `sep` (like Python
    `str.split`, keeping empty pieces). -/
def splitOnChar (sep : Char) : List Char → List (List Char)
  | [] => [[]]
  | c :: cs =>
    match splitOnChar sep cs with
    | [] => [[]]
    | h :: t => if c = sep then [] :: h :: t else (c :: h) :: t

/-- Numeric value of a digit string. -/
def digitsVal (l : List Char) : Nat := l.foldl (fun a c => 10 * a + (c.toNat - 48)) 0

def isDigitList (l : List Char) : Bool := l.all (·.isDigit)

/-- Value of `intPart.fracPart` as a rational. -/
def decimalVal (a b : List Char) : ℚ :=
  (digitsVal a : ℚ) + (digitsVal b : ℚ) / (10 : ℚ) ^ b.length

/-- Model of Python `float(s)` on strings drawn from the charset `0123456789.`:
    an optional decimal point with digits around it, at least one digit in
    total.  Leading zeros are accepted (`float("077") == 77.0`). -/
def parseFloatStr (l : List Char) : Option ℚ :=
  match splitOnChar '.' l with
  | [a] => if a ≠ [] ∧ isDigitList a then some (digitsVal a) else none
  | [a, b] =>
    if (a ≠ [] ∨ b ≠ []) ∧ isDigitList a ∧ isDigitList b
    then some (decimalVal a b) else none
  | _ => none

/-- Model of a Python numeric literal over the charset `0123456789.` as it may
    appear as an operand inside `eval`: either a decimal integer literal
    (leading zeros only allowed when every digit is zero: `00` is legal,
    `077` is a SyntaxError) or a float literal (`1.`, `.5`, `07.5` are all
    legal; `.` alone is not). -/
def parseNumberLit (l : List Char) : Option ℚ :=
  match splitOnChar '.' l with
  | [a] =>
    if a ≠ [] ∧ isDigitList a ∧ (a.head? = some '0' → a.all (· = '0'))
    then some (digitsVal a) else none
  | [a, b] =>
    if (a ≠ [] ∨ b ≠ []) ∧ isDigitList a ∧ isDigitList b
    then some (decimalVal a b) else none
  | _ => none

deriving instance DecidableEq for Except

/-- Exceptions that Python `eval` can produce on this charset. -/
inductive PyErr where
  | syntaxErr
  | zeroDiv
  deriving DecidableEq

/-- Errors raised by `to_float` (both are `argparse.ArgumentTypeError`, with
    distinct messages). -/
inductive ArgErr where
  | invalidChars
  | parseErr
  deriving DecidableEq

/-- Evaluates the remaining operands of a division chain, left-associatively.
    After splitting on `/`, an empty piece between two operands encodes the
    floor-division operator `//` (Python: `a // b`); any other empty or
    unparsable piece is a SyntaxError. -/
def evalChain : ℚ → List (List Char) → Except PyErr ℚ
  | acc, [] => .ok acc
  | acc, [] :: p :: rest =>
    match parseNumberLit p with
    | none => .error .syntaxErr
    | some q => if q = 0 then .error .zeroDiv else evalChain ((⌊acc / q⌋ : ℤ) : ℚ) rest
  | acc, p :: rest =>
    match parseNumberLit p with
    | none => .error .syntaxErr
    | some q => if q = 0 then .error .zeroDiv else evalChain (acc / q) rest

/-- Model of Python `eval(s)` for strings over the charset `0123456789./`
    containing at least one `/`: a chain of `/` and `//` applied to numeric
    literals, evaluated left to right. -/
def pyEvalDiv (l : List Char) : Except PyErr ℚ :=
  match splitOnChar '/' l with
  | [] => .error .syntaxErr
  | p :: rest =>
    match parseNumberLit p with
    | none => .error .syntaxErr
    | some q => evalChain q rest

/-- Model of `to_float` (lines 142-148): reject any character outside
    `0123456789./`; otherwise `eval` when the string contains a slash, else
    `float`; `SyntaxError`, `ZeroDivisionError`, `TypeError` and `ValueError`
    are all converted to an `ArgumentTypeError`. -/
def to_float (l : List Char) : Except ArgErr ℚ :=
  if l.any (fun c => !(allowedChar c)) then .error .invalidChars
  else
    let r : Except PyErr ℚ :=
      if '/' ∈ l then pyEvalDiv l
      else match parseFloatStr l with
        | some q => .ok q
        | none => .error .syntaxErr
    match r with
    | .ok q => .ok q
    | .error _ => .error .parseErr

/-! ## `getw` and `descale_cropping_args` (getfnative.py lines 151-182) -/

/-- Width and height of a VapourSynth clip, as used by `getw` and
    `descale_cropping_args`. -/
structure ClipDim where
  width : ℤ
  height : ℤ

/-- Model of `getw` (lines 151-157): `ceil(height * clip.width / clip.height)`,
    rounded down to an even number when `height` is even (`width // 2 * 2`,
    Python floor division). -/
def getw (clip : ClipDim) (height : ℤ) : ℤ :=
  let width : ℤ := ⌈((height * clip.width : ℤ) : ℚ) / (clip.height : ℚ)⌉
  if height % 2 = 0 then (Int.fdiv width 2) * 2 else width

/-- Model of `src_width = src_height * clip.width / clip.height` (line 164). -/
def srcWidth (clip : ClipDim) (src_height : ℚ) : ℚ :=
  src_height * (clip.width : ℚ) / (clip.height : ℚ)

/-- Model of `base - 2 * floor((base - src) / 2)` (lines 165-166), used for
    both the cropped width and the cropped height. -/
def croppedDim (base : ℤ) (src : ℚ) : ℚ :=
  (base : ℚ) - 2 * ((⌊((base : ℚ) - src) / 2⌋ : ℤ) : ℚ)

/-- Result dictionary of `descale_cropping_args`: each key is present exactly
    when the corresponding mode letter is present. -/
structure CroppingArgs where
  width : Option ℚ
  src_width : Option ℚ
  src_left : Option ℚ
  height : Option ℚ
  src_height : Option ℚ
  src_top : Option ℚ

/-- Model of `descale_cropping_args` (lines 160-182).  The leading
    `assert base_height >= src_height` is modelled by returning `none` when
    it fails. -/
def descale_cropping_args (clip : ClipDim) (src_height : ℚ) (base_height : ℤ)
    (base_width : Option ℤ) (mode : List Char) : Option CroppingArgs :=
  if src_height ≤ (base_height : ℚ) then
    let bw := base_width.getD (getw clip base_height)
    let sw := srcWidth clip src_height
    let cw := croppedDim bw sw
    let ch := croppedDim base_height src_height
    let modeL := mode.map Char.toLower
    some {
      width := if 'w' ∈ modeL then some cw else none
      src_width := if 'w' ∈ modeL then some sw else none
      src_left := if 'w' ∈ modeL then some ((cw - sw) / 2) else none
      height := if 'h' ∈ modeL then some ch else none
      src_height := if 'h' ∈ modeL then some src_height else none
      src_top := if 'h' ∈ modeL then some ((ch - src_height) / 2) else none }
  else none

/-! ## The `frames` scheduler (getfnative.py lines 62-138)

The scheduler is modelled as a small-step transition system.  All mutable
state captured by the closures of `frames` (plus the ghost history `subs` of
indices handed to `get_frame_async`, and the delivery-side locals `sidx`,
the list of yielded values, whether the generator has exited, and the
computation error it raised, if any) lives in `SchedState`.

A reorder-buffer entry `(i, d)` records the future for index `i`; `d` is the
done-flag of that future.  The eventual outcome of the computation for index
`i` is `cfg.res i`.  Each atomic step of the system is one lock-protected
critical section of the Python code:

* `Event.complete i` — the future of index `i` transitions to done and its
  `add_done_callback` callback `_finished` runs;
* `Event.consume` — one iteration of the consumer loop of the generator
  (which only proceeds once `reorder[sidx]` exists and `fut.result()` can
  return, i.e. once that future is done; the busy-wait `continue` and the
  block inside `fut.result()` are non-steps);
* `Event.close` — the consumer abandons iteration early, running the
  `finally` block.
-/

/-- Parameters of one run of `frames`: the clip length `N = len(clip)`, the
    effective prefetch and backlog (after normalization), and the eventual
    outcome of the asynchronous computation of every frame index. -/
structure Cfg (E V : Type) where
  N : Nat
  prefetch : Nat
  backlog : Nat
  res : Nat → Except E V

/-- The mutable state of one run of `frames`. -/
structure SchedState (E V : Type) where
  /-- the closure variable `finished` -/
  finished : Bool
  /-- the closure variable `running` -/
  running : Nat
  /-- the dict `reorder`: index ↦ done-flag of its future (insertion order) -/
  reorder : List (Nat × Bool)
  /-- how far the enumerated generator `enum_fut` has advanced -/
  nextIdx : Nat
  /-- the consumer-side cursor `sidx` -/
  sidx : Nat
  /-- values yielded so far, in order -/
  out : List V
  /-- ghost history: indices submitted via `get_frame_async`, in order -/
  subs : List Nat
  /-- whether the generator has exited (StopIteration, raised error, close) -/
  isDone : Bool
  /-- the computation error the generator raised, if any -/
  errRaised : Option E

variable {E V : Type}

/-- Done-flag of index `i` in the reorder buffer, `none` when absent. -/
def lookupR (l : List (Nat × Bool)) (i : Nat) : Option Bool :=
  (l.find? (fun p => p.1 == i)).map (fun p => p.2)

/-- Marks the future of index `i` as done. -/
def markDone (l : List (Nat × Bool)) (i : Nat) : List (Nat × Bool) :=
  l.map (fun p => if p.1 == i then (p.1, true) else p)

/-- Removes index `i` from the reorder buffer (`del reorder[sidx]`). -/
def removeKey (l : List (Nat × Bool)) (i : Nat) : List (Nat × Bool) :=
  l.filter (fun p => !(p.1 == i))

/-- Model of `_request_next` (lines 77-92): if not finished, pull the next
    index from `enum_fut` (exhaustion sets `finished`), bump `running`,
    record the new pending future in `reorder`. -/
def requestNext (cfg : Cfg E V) (s : SchedState E V) : SchedState E V :=
  if s.finished then s
  else if cfg.N ≤ s.nextIdx then { s with finished := true }
  else { s with
    running := s.running + 1
    reorder := s.reorder ++ [(s.nextIdx, false)]
    subs := s.subs ++ [s.nextIdx]
    nextIdx := s.nextIdx + 1 }

/-- Loop guard of `_refill` (line 114). -/
def refillGuard (cfg : Cfg E V) (s : SchedState E V) : Prop :=
  s.finished = false ∧ s.running < cfg.prefetch ∧ s.reorder.length < cfg.backlog

instance (cfg : Cfg E V) (s : SchedState E V) : Decidable (refillGuard cfg s) := by
  unfold refillGuard; infer_instance

/-- The `while` loop of `_refill`, with explicit fuel.  Every iteration whose
    guard holds either sets `finished` or increments `running`, so any fuel
    of at least `prefetch + 1 - running` runs the loop to completion
    (see `refillAux_guard_false`). -/
def refillAux (cfg : Cfg E V) : Nat → SchedState E V → SchedState E V
  | 0, s => s
  | fuel + 1, s =>
    if refillGuard cfg s then refillAux cfg fuel (requestNext cfg s) else s

/-- Model of `_refill` (lines 107-117). -/
def refill (cfg : Cfg E V) (s : SchedState E V) : SchedState E V :=
  if s.finished then s else refillAux cfg (cfg.prefetch + 1 - s.running) s

/-- Model of the done-callback `_finished` (lines 94-105), running after the
    future of index `i` has been marked done: decrement `running`; stop if
    `finished`; on an error outcome set `finished`; otherwise `_refill`. -/
def finishedCB (cfg : Cfg E V) (i : Nat) (s : SchedState E V) : SchedState E V :=
  let s1 : SchedState E V := { s with running := s.running - 1, reorder := markDone s.reorder i }
  if s1.finished then s1
  else match cfg.res i with
    | .error _ => { s1 with finished := true }
    | .ok _ => refill cfg s1

/-- The atomic events of the system. -/
inductive Event where
  /-- the worker pool completes the future of index `i` and runs `_finished` -/
  | complete (i : Nat)
  /-- one iteration of the consumer loop -/
  | consume
  /-- the consumer abandons iteration early -/
  | close
  deriving DecidableEq

/-- One atomic step.  `none` means the event is not enabled in this state
    (a future that is not pending cannot complete; a consumer blocked on the
    busy-wait or inside `fut.result()` makes no step; an exited generator
    makes no step). -/
def step (cfg : Cfg E V) (e : Event) (s : SchedState E V) : Option (SchedState E V) :=
  match e with
  | .complete i =>
    match lookupR s.reorder i with
    | some false => some (finishedCB cfg i s)
    | _ => none
  | .close => if s.isDone then none else some { s with finished := true, isDone := true }
  | .consume =>
    if s.isDone then none
    else if s.finished = false ∨ 0 < s.reorder.length ∨ 0 < s.running then
      -- loop condition (line 121) holds: body of the consumer loop
      match lookupR s.reorder s.sidx with
      | none => none        -- `sidx not in reorder`: spin (line 122-124), no state change
      | some false => none  -- `fut.result()` still blocking
      | some true =>
        match cfg.res s.sidx with
        | .error err =>
          -- `fut.result()` raises; the `finally` block runs; the generator
          -- propagates the computation error to the consumer
          some { s with errRaised := some err, isDone := true, finished := true }
        | .ok v =>
          -- lines 127-134: deliver, `del reorder[sidx]`, `_refill()`, advance
          let s1 : SchedState E V := { s with reorder := removeKey s.reorder s.sidx }
          let s2 := refill cfg s1
          some { s2 with sidx := s2.sidx + 1, out := s2.out ++ [v] }
    else
      -- loop condition fails: StopIteration, `finally` block
      some { s with isDone := true, finished := true }

/-- The freshly initialized closure state of `frames` (lines 72-75 and 119):
    nothing submitted, nothing buffered, cursor at 0. -/
def emptySched : SchedState E V :=
  { finished := false, running := 0, reorder := [], nextIdx := 0,
    sidx := 0, out := [], subs := [], isDone := false, errRaised := none }

/-- The empty state after the consumer has closed the generator. -/
def closedSched : SchedState E V :=
  { (emptySched : SchedState E V) with finished := true, isDone := true }

/-- State right after the setup of `frames`: all closure variables fresh,
    then the initial `_refill()` call (line 117). -/
def initState (cfg : Cfg E V) : SchedState E V :=
  refill cfg emptySched

/-- Runs a list of events from a state; `none` when some event is not enabled. -/
def runFrom (cfg : Cfg E V) (s : SchedState E V) : List Event → Option (SchedState E V)
  | [] => some s
  | e :: tr =>
    match step cfg e s with
    | some s1 => runFrom cfg s1 tr
    | none => none

/-- Runs a list of events from the initial state of `frames`. -/
def run (cfg : Cfg E V) (tr : List Event) : Option (SchedState E V) :=
  runFrom cfg (initState cfg) tr

/-- Termination measure: strictly decreases at every step. -/
def phi (cfg : Cfg E V) (s : SchedState E V) : Nat :=
  2 * (cfg.N - s.nextIdx) + s.running + (cfg.N - s.sidx) + (if s.isDone then 0 else 1)

/-- Shape of the reorder buffer relative to a left endpoint `a`: it holds
    exactly the indices `a, a+1, ..., nextIdx-1` in order, each paired with
    the done-flag of its future, and `running` counts the pending ones. -/
def shapeAt (a : Nat) (s : SchedState E V) : Prop :=
  ∃ fl : Nat → Bool,
    s.reorder = (List.range' a (s.nextIdx - a)).map (fun j => (j, fl j))
    ∧ s.running = ((List.range' a (s.nextIdx - a)).filter (fun j => !(fl j))).length

/-- Inductive invariant of the `frames` transition system: how the cursor,
    the enumeration position, the reorder buffer, the counters and the flags
    relate at every reachable state. -/
structure Inv (cfg : Cfg E V) (s : SchedState E V) : Prop where
  sidx_le : s.sidx ≤ s.nextIdx
  next_le : s.nextIdx ≤ cfg.N
  shape : shapeAt s.sidx s
  run_le : s.running ≤ cfg.prefetch
  reo_le : s.reorder.length ≤ cfg.backlog
  subs_eq : s.subs = List.range s.nextIdx
  refilled : s.finished = false → cfg.prefetch ≤ s.running ∨ cfg.backlog ≤ s.reorder.length
  out_eq : s.out = (List.range s.sidx).filterMap (fun i => (cfg.res i).toOption)
  sidx_ok : ∀ i, i < s.sidx → (cfg.res i).isOk = true
  done_fin : s.isDone = true → s.finished = true
  err_done : ∀ e0, s.errRaised = some e0 → s.isDone = true
  fin_reason : s.finished = true →
    s.isDone = true ∨ s.nextIdx = cfg.N
    ∨ ∃ i e0, lookupR s.reorder i = some true ∧ cfg.res i = Except.error e0

/-- Concrete two-frame configuration where every computation succeeds. -/
def cfgW : Cfg Unit Nat := ⟨2, 1, 1, fun i => Except.ok i⟩

/-- Concrete two-frame configuration whose computation at index 1 fails. -/
def cfgE : Cfg Unit Nat := ⟨2, 1, 1, fun i => if i = 1 then Except.error () else Except.ok i⟩

/-- Concrete empty-clip configuration. -/
def cfgZ : Cfg Unit Nat := ⟨0, 1, 1, fun i => Except.ok i⟩

/-- Concrete zero-worker configuration (effective prefetch and backlog 0). -/
def cfg0 : Cfg Unit Nat := ⟨1, 0, 0, fun i => Except.ok i⟩


/-! ## Association-list helpers for the reorder buffer -/

theorem lookupR_keyed {fl : Nat → Bool} :
    ∀ {l : List Nat} {i : Nat}, i ∈ l →
      lookupR (l.map (fun j => (j, fl j))) i = some (fl i) := by
  intro l
  induction l with
  | nil => intro i h; cases h
  | cons a l ih =>
    intro i h
    by_cases hai : a = i
    · subst hai
      simp [lookupR, List.find?]
    · have hil : i ∈ l := by
        cases h with
        | head => exact absurd rfl hai
        | tail _ h2 => exact h2
      have : (a == i) = false := by simp [hai]
      simpa [lookupR, List.find?, this] using ih hil

theorem lookupR_keyed_not {fl : Nat → Bool} :
    ∀ {l : List Nat} {i : Nat}, i ∉ l →
      lookupR (l.map (fun j => (j, fl j))) i = none := by
  intro l
  induction l with
  | nil => intro i _; rfl
  | cons a l ih =>
    intro i h
    have hai : (a == i) = false := by
      simp only [beq_eq_false_iff_ne, ne_eq]
      intro hc; exact h (hc ▸ List.mem_cons_self a l)
    have hil : i ∉ l := fun hc => h (List.mem_cons_of_mem a hc)
    simpa [lookupR, List.find?, hai] using ih hil

theorem markDone_keyed (fl : Nat → Bool) (i : Nat) :
    ∀ l : List Nat,
      markDone (l.map (fun j => (j, fl j))) i
        = l.map (fun j => (j, if j = i then true else fl j)) := by
  intro l
  induction l with
  | nil => rfl
  | cons a l ih =>
    unfold markDone at ih ⊢
    simp only [List.map_cons, List.map_map]
    congr 1
    · by_cases hai : a = i <;> simp [hai]
    · simpa using ih

theorem removeKey_keyed (fl : Nat → Bool) (i : Nat) :
    ∀ l : List Nat,
      removeKey (l.map (fun j => (j, fl j))) i
        = (l.filter (fun j => !(j == i))).map (fun j => (j, fl j)) := by
  intro l
  induction l with
  | nil => rfl
  | cons a l ih =>
    by_cases hai : a = i
    · subst hai; simp [removeKey, List.filter] at ih ⊢; exact ih
    · have h1 : (a == i) = false := by simp [hai]
      simp [removeKey, List.filter, h1] at ih ⊢; exact ih

theorem lookupR_append_left {l l2 : List (Nat × Bool)} {i : Nat} {b : Bool}
    (h : lookupR l i = some b) : lookupR (l ++ l2) i = some b := by
  induction l with
  | nil => simp [lookupR] at h
  | cons a l ih =>
    by_cases hai : (a.1 == i) = true
    · simpa [lookupR, List.find?, hai] using h
    · have hai' : (a.1 == i) = false := by simpa using hai
      simp only [lookupR, List.find?, hai', List.cons_append] at h ⊢
      exact ih h

theorem count_false_update {i : Nat} {fl g : Nat → Bool} (hfl : fl i = false)
    (hg : g i = true) (hagree : ∀ j, j ≠ i → g j = fl j) :
    ∀ {l : List Nat}, l.Nodup → i ∈ l →
      (l.filter (fun j => !(g j))).length + 1 = (l.filter (fun j => !(fl j))).length := by
  intro l
  induction l with
  | nil => intro _ h; cases h
  | cons a l ih =>
    intro hnd hmem
    have hnd1 : l.Nodup := (List.nodup_cons.mp hnd).2
    have hna : a ∉ l := (List.nodup_cons.mp hnd).1
    by_cases hai : a = i
    · have hil : i ∉ l := by rw [← hai]; exact hna
      have hcong : l.filter (fun j => !(g j)) = l.filter (fun j => !(fl j)) := by
        apply List.filter_congr
        intro j hj
        have hji : j ≠ i := fun hc => hil (hc ▸ hj)
        rw [hagree j hji]
      have h1 : (!(g a)) = false := by rw [hai, hg]; rfl
      have h2 : (!(fl a)) = true := by rw [hai, hfl]; rfl
      rw [List.filter_cons, List.filter_cons, hcong, h1, h2]
      simp
    · have hil : i ∈ l := by
        cases hmem with
        | head => exact absurd rfl hai
        | tail _ h2 => exact h2
      have hrec := ih hnd1 hil
      have hga : g a = fl a := hagree a hai
      rw [List.filter_cons, List.filter_cons, hga]
      cases hfa : (!(fl a))
      · simpa [hfa] using hrec
      · simp only [hfa, if_pos, List.length_cons]
        omega

/-! ## Basic properties of `requestNext`, `refillAux`, `refill` -/

variable {cfg : Cfg E V}

theorem requestNext_sidx (s : SchedState E V) : (requestNext cfg s).sidx = s.sidx := by
  unfold requestNext; split <;> [rfl; (split <;> rfl)]

theorem requestNext_out (s : SchedState E V) : (requestNext cfg s).out = s.out := by
  unfold requestNext; split <;> [rfl; (split <;> rfl)]

theorem requestNext_isDone (s : SchedState E V) : (requestNext cfg s).isDone = s.isDone := by
  unfold requestNext; split <;> [rfl; (split <;> rfl)]

theorem requestNext_errRaised (s : SchedState E V) :
    (requestNext cfg s).errRaised = s.errRaised := by
  unfold requestNext; split <;> [rfl; (split <;> rfl)]

theorem refillAux_sidx (fuel : Nat) (s : SchedState E V) :
    (refillAux cfg fuel s).sidx = s.sidx := by
  induction fuel generalizing s with
  | zero => rfl
  | succ fuel ih =>
    unfold refillAux
    split
    · rw [ih, requestNext_sidx]
    · rfl

theorem refillAux_out (fuel : Nat) (s : SchedState E V) :
    (refillAux cfg fuel s).out = s.out := by
  induction fuel generalizing s with
  | zero => rfl
  | succ fuel ih =>
    unfold refillAux
    split
    · rw [ih, requestNext_out]
    · rfl

theorem refillAux_isDone (fuel : Nat) (s : SchedState E V) :
    (refillAux cfg fuel s).isDone = s.isDone := by
  induction fuel generalizing s with
  | zero => rfl
  | succ fuel ih =>
    unfold refillAux
    split
    · rw [ih, requestNext_isDone]
    · rfl

theorem refillAux_errRaised (fuel : Nat) (s : SchedState E V) :
    (refillAux cfg fuel s).errRaised = s.errRaised := by
  induction fuel generalizing s with
  | zero => rfl
  | succ fuel ih =>
    unfold refillAux
    split
    · rw [ih, requestNext_errRaised]
    · rfl

theorem refill_sidx (s : SchedState E V) : (refill cfg s).sidx = s.sidx := by
  unfold refill; split <;> [rfl; exact refillAux_sidx _ _]

theorem refill_out (s : SchedState E V) : (refill cfg s).out = s.out := by
  unfold refill; split <;> [rfl; exact refillAux_out _ _]

theorem refill_isDone (s : SchedState E V) : (refill cfg s).isDone = s.isDone := by
  unfold refill; split <;> [rfl; exact refillAux_isDone _ _]

theorem refill_errRaised (s : SchedState E V) : (refill cfg s).errRaised = s.errRaised := by
  unfold refill; split <;> [rfl; exact refillAux_errRaised _ _]

theorem refillAux_finished_id (fuel : Nat) (s : SchedState E V) (h : s.finished = true) :
    refillAux cfg fuel s = s := by
  cases fuel with
  | zero => rfl
  | succ fuel =>
    unfold refillAux
    rw [if_neg]
    intro hg
    rw [hg.1] at h
    cases h

theorem refill_finished_id (s : SchedState E V) (h : s.finished = true) :
    refill cfg s = s := by
  unfold refill; rw [if_pos h]

theorem refillAux_guard_false (fuel : Nat) (s : SchedState E V)
    (hfuel : cfg.prefetch ≤ s.running + fuel) :
    ¬ refillGuard cfg (refillAux cfg fuel s) := by
  induction fuel generalizing s with
  | zero =>
    simp only [refillAux]
    intro hg
    have h1 := hg.2.1
    omega
  | succ fuel ih =>
    by_cases hg : refillGuard cfg s
    · have hstep : refillAux cfg (fuel + 1) s
          = if refillGuard cfg s then refillAux cfg fuel (requestNext cfg s) else s := rfl
      rw [hstep, if_pos hg]
      unfold requestNext
      rw [if_neg (by simp [hg.1])]
      by_cases hN : cfg.N ≤ s.nextIdx
      · rw [if_pos hN, refillAux_finished_id _ _ rfl]
        intro hg2
        exact absurd hg2.1 (by simp)
      · rw [if_neg hN]
        apply ih
        simp only
        have h1 := hg.2.1
        omega
    · unfold refillAux; rw [if_neg hg]; exact hg

theorem refill_guard_false (s : SchedState E V) : ¬ refillGuard cfg (refill cfg s) := by
  unfold refill
  split
  · rename_i h
    intro hg
    rw [hg.1] at h
    cases h
  · apply refillAux_guard_false
    omega

/-- After any `_refill`, a non-finished state has a saturated concurrency
    window or a saturated reorder buffer. -/
theorem refill_post (s : SchedState E V) (h : (refill cfg s).finished = false) :
    cfg.prefetch ≤ (refill cfg s).running ∨ cfg.backlog ≤ (refill cfg s).reorder.length := by
  have hg := @refill_guard_false E V cfg s
  unfold refillGuard at hg
  push_neg at hg
  have := hg h
  omega

/-! ## Shape of the reorder buffer and refill preservation lemmas -/

theorem requestNext_next_mono (s : SchedState E V) :
    s.nextIdx ≤ (requestNext cfg s).nextIdx := by
  unfold requestNext; split
  · exact Nat.le_refl _
  split
  · exact Nat.le_refl _
  · exact Nat.le_succ _

theorem requestNext_next_le {s : SchedState E V} (h : s.nextIdx ≤ cfg.N) :
    (requestNext cfg s).nextIdx ≤ cfg.N := by
  unfold requestNext; split
  · exact h
  split
  · exact h
  · rename_i h2
    simp only
    omega

theorem requestNext_subs {s : SchedState E V} (h : s.subs = List.range s.nextIdx) :
    (requestNext cfg s).subs = List.range (requestNext cfg s).nextIdx := by
  unfold requestNext; split
  · exact h
  split
  · exact h
  · simp only
    rw [List.range_succ, h]

theorem requestNext_fin {s : SchedState E V} (hle : s.nextIdx ≤ cfg.N)
    (h : s.finished = false) :
    (requestNext cfg s).finished = true → (requestNext cfg s).nextIdx = cfg.N := by
  unfold requestNext
  rw [if_neg (by simp [h])]
  split
  · rename_i h2
    intro _
    simp only
    omega
  · intro hc
    rw [h] at hc
    cases hc

theorem requestNext_reorder_extend (s : SchedState E V) :
    ∃ l2, (requestNext cfg s).reorder = s.reorder ++ l2 := by
  unfold requestNext; split
  · exact ⟨[], by simp⟩
  split
  · exact ⟨[], by simp⟩
  · exact ⟨[(s.nextIdx, false)], rfl⟩

theorem requestNext_shapeAt {a : Nat} {s : SchedState E V} (ha : a ≤ s.nextIdx)
    (hsh : shapeAt a s) :
    shapeAt a (requestNext cfg s) ∧ a ≤ (requestNext cfg s).nextIdx := by
  obtain ⟨fl, hre, hrun⟩ := hsh
  unfold requestNext
  split
  · exact ⟨⟨fl, hre, hrun⟩, ha⟩
  split
  · exact ⟨⟨fl, hre, hrun⟩, ha⟩
  · refine ⟨⟨fun j => if j = s.nextIdx then false else fl j, ?_, ?_⟩, by simp only; omega⟩
    · show s.reorder ++ [(s.nextIdx, false)]
        = (List.range' a (s.nextIdx + 1 - a)).map
            (fun j => (j, if j = s.nextIdx then false else fl j))
      have hd : s.nextIdx + 1 - a = (s.nextIdx - a) + 1 := by omega
      rw [hd, List.range'_concat, List.map_append]
      have hend : a + 1 * (s.nextIdx - a) = s.nextIdx := by omega
      rw [hend]
      congr 1
      · rw [hre]
        apply List.map_congr_left
        intro j hj
        have hj2 := List.mem_range'_1.mp hj
        have hjne : ¬(j = s.nextIdx) := by omega
        simp [hjne]
      · simp
    · show s.running + 1
        = ((List.range' a (s.nextIdx + 1 - a)).filter
            (fun j => !(if j = s.nextIdx then false else fl j))).length
      have hd : s.nextIdx + 1 - a = (s.nextIdx - a) + 1 := by omega
      rw [hd, List.range'_concat, List.filter_append]
      have hend : a + 1 * (s.nextIdx - a) = s.nextIdx := by omega
      rw [hend]
      have hpre : (List.range' a (s.nextIdx - a)).filter
            (fun j => !(if j = s.nextIdx then false else fl j))
          = (List.range' a (s.nextIdx - a)).filter (fun j => !(fl j)) := by
        apply List.filter_congr
        intro j hj
        have hj2 := List.mem_range'_1.mp hj
        have hjne : ¬(j = s.nextIdx) := by omega
        simp [hjne]
      rw [hpre]
      simp [hrun]

theorem refillAux_next_mono (fuel : Nat) (s : SchedState E V) :
    s.nextIdx ≤ (refillAux cfg fuel s).nextIdx := by
  induction fuel generalizing s with
  | zero => exact Nat.le_refl _
  | succ fuel ih =>
    show (if refillGuard cfg s then refillAux cfg fuel (requestNext cfg s) else s).nextIdx ≥ _
    split
    · exact Nat.le_trans (requestNext_next_mono s) (ih _)
    · exact Nat.le_refl _

theorem refillAux_next_le (fuel : Nat) {s : SchedState E V} (h : s.nextIdx ≤ cfg.N) :
    (refillAux cfg fuel s).nextIdx ≤ cfg.N := by
  induction fuel generalizing s with
  | zero => exact h
  | succ fuel ih =>
    show (if refillGuard cfg s then refillAux cfg fuel (requestNext cfg s) else s).nextIdx ≤ _
    split
    · exact ih (requestNext_next_le h)
    · exact h

theorem refillAux_subs (fuel : Nat) {s : SchedState E V} (h : s.subs = List.range s.nextIdx) :
    (refillAux cfg fuel s).subs = List.range (refillAux cfg fuel s).nextIdx := by
  induction fuel generalizing s with
  | zero => exact h
  | succ fuel ih =>
    show (if refillGuard cfg s then refillAux cfg fuel (requestNext cfg s) else s).subs = _
    rw [show (if refillGuard cfg s then refillAux cfg fuel (requestNext cfg s) else s)
        = refillAux cfg (fuel + 1) s from rfl]
    show (refillAux cfg (fuel + 1) s).subs = _
    rw [show refillAux cfg (fuel + 1) s
        = if refillGuard cfg s then refillAux cfg fuel (requestNext cfg s) else s from rfl]
    split
    · exact ih (requestNext_subs h)
    · exact h

theorem refillAux_fin (fuel : Nat) {s : SchedState E V} (hle : s.nextIdx ≤ cfg.N)
    (h : s.finished = false) :
    (refillAux cfg fuel s).finished = true → (refillAux cfg fuel s).nextIdx = cfg.N := by
  induction fuel generalizing s with
  | zero => simp only [refillAux]; intro hc; rw [h] at hc; cases hc
  | succ fuel ih =>
    rw [show refillAux cfg (fuel + 1) s
        = if refillGuard cfg s then refillAux cfg fuel (requestNext cfg s) else s from rfl]
    split
    · cases hf : (requestNext cfg s).finished with
      | true =>
        intro _
        rw [refillAux_finished_id fuel _ hf] at *
        exact requestNext_fin hle h hf
      | false => exact ih (requestNext_next_le hle) hf
    · intro hc; rw [h] at hc; cases hc

theorem refillAux_reorder_extend (fuel : Nat) (s : SchedState E V) :
    ∃ l2, (refillAux cfg fuel s).reorder = s.reorder ++ l2 := by
  induction fuel generalizing s with
  | zero => exact ⟨[], by simp [refillAux]⟩
  | succ fuel ih =>
    rw [show refillAux cfg (fuel + 1) s
        = if refillGuard cfg s then refillAux cfg fuel (requestNext cfg s) else s from rfl]
    split
    · obtain ⟨l1, h1⟩ := @requestNext_reorder_extend E V cfg s
      obtain ⟨l2, h2⟩ := ih (requestNext cfg s)
      exact ⟨l1 ++ l2, by rw [h2, h1, List.append_assoc]⟩
    · exact ⟨[], by simp⟩

theorem refillAux_shapeAt (fuel : Nat) {a : Nat} {s : SchedState E V}
    (ha : a ≤ s.nextIdx) (hsh : shapeAt a s) :
    shapeAt a (refillAux cfg fuel s) ∧ a ≤ (refillAux cfg fuel s).nextIdx := by
  induction fuel generalizing s with
  | zero => exact ⟨hsh, ha⟩
  | succ fuel ih =>
    rw [show refillAux cfg (fuel + 1) s
        = if refillGuard cfg s then refillAux cfg fuel (requestNext cfg s) else s from rfl]
    split
    · obtain ⟨hsh2, ha2⟩ := @requestNext_shapeAt E V cfg _ _ ha hsh
      exact ih ha2 hsh2
    · exact ⟨hsh, ha⟩

theorem refillAux_run_le (fuel : Nat) {s : SchedState E V} (h : s.running ≤ cfg.prefetch) :
    (refillAux cfg fuel s).running ≤ cfg.prefetch := by
  induction fuel generalizing s with
  | zero => exact h
  | succ fuel ih =>
    rw [show refillAux cfg (fuel + 1) s
        = if refillGuard cfg s then refillAux cfg fuel (requestNext cfg s) else s from rfl]
    split
    · rename_i hg
      apply ih
      unfold requestNext
      split
      · exact h
      split
      · exact h
      · simp only
        have h2 := hg.2.1
        omega
    · exact h

theorem refillAux_reo_le (fuel : Nat) {s : SchedState E V}
    (h : s.reorder.length ≤ cfg.backlog) :
    (refillAux cfg fuel s).reorder.length ≤ cfg.backlog := by
  induction fuel generalizing s with
  | zero => exact h
  | succ fuel ih =>
    rw [show refillAux cfg (fuel + 1) s
        = if refillGuard cfg s then refillAux cfg fuel (requestNext cfg s) else s from rfl]
    split
    · rename_i hg
      apply ih
      unfold requestNext
      split
      · exact h
      split
      · exact h
      · simp only [List.length_append, List.length_cons, List.length_nil]
        have h2 := hg.2.2
        omega
    · exact h

theorem refill_shapeAt {a : Nat} {s : SchedState E V} (ha : a ≤ s.nextIdx)
    (hsh : shapeAt a s) :
    shapeAt a (refill cfg s) ∧ a ≤ (refill cfg s).nextIdx := by
  unfold refill; split
  · exact ⟨hsh, ha⟩
  · exact refillAux_shapeAt _ ha hsh

theorem refill_next_mono (s : SchedState E V) : s.nextIdx ≤ (refill cfg s).nextIdx := by
  unfold refill; split
  · exact Nat.le_refl _
  · exact refillAux_next_mono _ _

theorem refill_next_le {s : SchedState E V} (h : s.nextIdx ≤ cfg.N) :
    (refill cfg s).nextIdx ≤ cfg.N := by
  unfold refill; split
  · exact h
  · exact refillAux_next_le _ h

theorem refill_subs {s : SchedState E V} (h : s.subs = List.range s.nextIdx) :
    (refill cfg s).subs = List.range (refill cfg s).nextIdx := by
  unfold refill; split
  · exact h
  · exact refillAux_subs _ h

theorem refill_run_le {s : SchedState E V} (h : s.running ≤ cfg.prefetch) :
    (refill cfg s).running ≤ cfg.prefetch := by
  unfold refill; split
  · exact h
  · exact refillAux_run_le _ h

theorem refill_reo_le {s : SchedState E V} (h : s.reorder.length ≤ cfg.backlog) :
    (refill cfg s).reorder.length ≤ cfg.backlog := by
  unfold refill; split
  · exact h
  · exact refillAux_reo_le _ h

theorem refill_fin {s : SchedState E V} (hle : s.nextIdx ≤ cfg.N) :
    (refill cfg s).finished = true → s.finished = true ∨ (refill cfg s).nextIdx = cfg.N := by
  unfold refill; split
  · exact fun h => Or.inl h
  · intro h
    cases hf : s.finished with
    | true => exact Or.inl rfl
    | false => exact Or.inr (refillAux_fin _ hle hf h)

theorem refill_reorder_extend (s : SchedState E V) :
    ∃ l2, (refill cfg s).reorder = s.reorder ++ l2 := by
  unfold refill; split
  · exact ⟨[], by simp⟩
  · exact refillAux_reorder_extend _ _

/-! ## The inductive invariant of the scheduler -/

theorem initState_inv : Inv cfg (initState cfg) := by
  unfold initState
  set b : SchedState E V := emptySched with hb
  have hshb : shapeAt 0 b := ⟨fun _ => false, by simp [hb, emptySched], by simp [hb, emptySched]⟩
  have hsh := @refill_shapeAt E V cfg 0 b (Nat.le_refl 0) hshb
  refine ⟨?_, ?_, ?_, ?_, ?_, ?_, ?_, ?_, ?_, ?_, ?_, ?_⟩
  · rw [refill_sidx]; exact Nat.zero_le _
  · exact refill_next_le (by simp [hb, emptySched])
  · rw [refill_sidx]; exact hsh.1
  · exact refill_run_le (by simp [hb, emptySched])
  · exact refill_reo_le (by simp [hb, emptySched])
  · exact refill_subs (by simp [hb, emptySched])
  · exact refill_post b
  · rw [refill_out, refill_sidx]; simp [hb, emptySched]
  · rw [refill_sidx]; intro i hi; simp [hb, emptySched] at hi
  · rw [refill_isDone]; intro hc; simp [hb, emptySched] at hc
  · rw [refill_errRaised]; intro e0 hc; simp [hb, emptySched] at hc
  · intro hf
    rcases refill_fin (by simp [hb, emptySched]) hf with h1 | h2
    · simp [hb, emptySched] at h1
    · exact Or.inr (Or.inl h2)

/-- Length of the reorder buffer under the shape invariant. -/
theorem shape_length {a : Nat} {s : SchedState E V} (hsh : shapeAt a s) :
    s.reorder.length = s.nextIdx - a := by
  obtain ⟨fl, hre, _⟩ := hsh
  rw [hre, List.length_map, List.length_range']

/-! ## Preservation of the invariant by every step -/

theorem lookupR_keyed_inv {fl : Nat → Bool} {l : List Nat} {i : Nat} {b : Bool}
    (h : lookupR (l.map (fun j => (j, fl j))) i = some b) : i ∈ l ∧ fl i = b := by
  by_cases hm : i ∈ l
  · rw [lookupR_keyed hm] at h
    exact ⟨hm, by simpa using h⟩
  · rw [lookupR_keyed_not hm] at h; cases h

theorem finishedCB_eq_of_finished {i : Nat} {s : SchedState E V} (hf : s.finished = true) :
    finishedCB cfg i s
      = { s with running := s.running - 1, reorder := markDone s.reorder i } := by
  unfold finishedCB
  rw [if_pos hf]

theorem finishedCB_eq_of_error {i : Nat} {s : SchedState E V} (hf : s.finished = false)
    {e0 : E} (hres : cfg.res i = .error e0) :
    finishedCB cfg i s
      = { s with running := s.running - 1, reorder := markDone s.reorder i,
                 finished := true } := by
  unfold finishedCB
  rw [if_neg (by simp [hf]), hres]

theorem finishedCB_eq_of_ok {i : Nat} {s : SchedState E V} (hf : s.finished = false)
    {v : V} (hres : cfg.res i = .ok v) :
    finishedCB cfg i s
      = refill cfg { s with running := s.running - 1, reorder := markDone s.reorder i } := by
  unfold finishedCB
  rw [if_neg (by simp [hf]), hres]

theorem markDone_length (l : List (Nat × Bool)) (i : Nat) :
    (markDone l i).length = l.length := by
  unfold markDone; rw [List.length_map]

theorem step_inv {s s' : SchedState E V} {e : Event} (hinv : Inv cfg s)
    (hstep : step cfg e s = some s') : Inv cfg s' := by
  obtain ⟨fl, hre, hrun⟩ := hinv.shape
  cases e with
  | close =>
    simp only [step] at hstep
    by_cases hd : s.isDone = true
    · rw [if_pos hd] at hstep; cases hstep
    · rw [if_neg hd] at hstep
      simp only [Option.some.injEq] at hstep
      subst hstep
      refine ⟨hinv.sidx_le, hinv.next_le, ⟨fl, hre, hrun⟩, hinv.run_le, hinv.reo_le,
        hinv.subs_eq, ?_, hinv.out_eq, hinv.sidx_ok, ?_, ?_, ?_⟩
      · intro hc; cases hc
      · intro _; rfl
      · intro e0 _; rfl
      · intro _; exact Or.inl rfl
  | complete i =>
    simp only [step] at hstep
    cases hl : lookupR s.reorder i with
    | none => rw [hl] at hstep; cases hstep
    | some b =>
      cases b with
      | true => rw [hl] at hstep; cases hstep
      | false =>
        rw [hl] at hstep
        simp only [Option.some.injEq] at hstep
        have hmemfl : i ∈ List.range' s.sidx (s.nextIdx - s.sidx) ∧ fl i = false :=
          lookupR_keyed_inv (hre ▸ hl)
        have hmem := hmemfl.1
        have hfl := hmemfl.2
        set fl2 : Nat → Bool := fun j => if j = i then true else fl j with hfl2
        have hmd : markDone s.reorder i
            = (List.range' s.sidx (s.nextIdx - s.sidx)).map (fun j => (j, fl2 j)) := by
          rw [hre, markDone_keyed]
        have hcnt := count_false_update (g := fl2) hfl (by simp [hfl2])
          (fun j hj => by simp [hfl2, hj]) (List.nodup_range' _ _) hmem
        have hcnt2 : s.running - 1
            = ((List.range' s.sidx (s.nextIdx - s.sidx)).filter
                (fun j => !(fl2 j))).length := by omega
        have hkeep : ∀ j, lookupR s.reorder j = some true →
            lookupR (markDone s.reorder i) j = some true := by
          intro j hj
          have hjm := lookupR_keyed_inv (hre ▸ hj)
          rw [hmd, lookupR_keyed hjm.1]
          have h2 := hjm.2
          simp [hfl2, h2]
        by_cases hf : s.finished = true
        · rw [finishedCB_eq_of_finished hf] at hstep
          subst hstep
          refine ⟨hinv.sidx_le, hinv.next_le, ⟨fl2, hmd, hcnt2⟩, ?_, ?_,
            hinv.subs_eq, ?_, hinv.out_eq, hinv.sidx_ok, ?_, ?_, ?_⟩
          · show s.running - 1 ≤ cfg.prefetch
            have := hinv.run_le; omega
          · show (markDone s.reorder i).length ≤ cfg.backlog
            rw [markDone_length]; exact hinv.reo_le
          · intro hc
            exact absurd (hf.symm.trans hc) (by simp)
          · intro _; exact hf
          · intro e0 h; exact hinv.err_done e0 h
          · intro _
            rcases hinv.fin_reason hf with h1 | h2 | ⟨j, e0, hj, hjerr⟩
            · exact Or.inl h1
            · exact Or.inr (Or.inl h2)
            · exact Or.inr (Or.inr ⟨j, e0, hkeep j hj, hjerr⟩)
        · have hf2 : s.finished = false := by simpa using hf
          cases hres : cfg.res i with
          | error e0 =>
            rw [finishedCB_eq_of_error hf2 hres] at hstep
            subst hstep
            refine ⟨hinv.sidx_le, hinv.next_le, ⟨fl2, hmd, hcnt2⟩, ?_, ?_,
              hinv.subs_eq, ?_, hinv.out_eq, hinv.sidx_ok, ?_, ?_, ?_⟩
            · show s.running - 1 ≤ cfg.prefetch
              have := hinv.run_le; omega
            · show (markDone s.reorder i).length ≤ cfg.backlog
              rw [markDone_length]; exact hinv.reo_le
            · intro hc; cases hc
            · intro _; rfl
            · intro e0' h; exact hinv.err_done e0' h
            · intro _
              refine Or.inr (Or.inr ⟨i, e0, ?_, hres⟩)
              show lookupR (markDone s.reorder i) i = some true
              rw [hmd, lookupR_keyed hmem]
              simp [hfl2]
          | ok v =>
            rw [finishedCB_eq_of_ok hf2 hres] at hstep
            subst hstep
            set s1 : SchedState E V :=
              { s with running := s.running - 1, reorder := markDone s.reorder i } with hs1
            have hsh1 : shapeAt s.sidx s1 := ⟨fl2, hmd, hcnt2⟩
            have hrsh := @refill_shapeAt E V cfg s.sidx s1 hinv.sidx_le hsh1
            have hsx : (refill cfg s1).sidx = s.sidx := refill_sidx s1
            have hid : (refill cfg s1).isDone = s.isDone := refill_isDone s1
            have herr : (refill cfg s1).errRaised = s.errRaised := refill_errRaised s1
            refine ⟨?_, ?_, ?_, ?_, ?_, ?_, ?_, ?_, ?_, ?_, ?_, ?_⟩
            · rw [hsx]; exact hrsh.2
            · exact refill_next_le hinv.next_le
            · rw [hsx]; exact hrsh.1
            · apply refill_run_le
              show s.running - 1 ≤ cfg.prefetch
              have := hinv.run_le; omega
            · apply refill_reo_le
              show (markDone s.reorder i).length ≤ cfg.backlog
              rw [markDone_length]; exact hinv.reo_le
            · apply refill_subs
              exact hinv.subs_eq
            · intro hc
              exact refill_post s1 hc
            · rw [refill_out, hsx]
              exact hinv.out_eq
            · rw [hsx]; exact hinv.sidx_ok
            · intro h
              rw [hid] at h
              exact absurd (hinv.done_fin h) (by simp [hf2])
            · intro e0 h
              rw [herr] at h
              rw [hid]
              exact hinv.err_done e0 h
            · intro hfin
              rcases refill_fin (s := s1) hinv.next_le hfin with h1 | h2
              · exact absurd (hf2.symm.trans h1) (by simp)
              · exact Or.inr (Or.inl h2)
  | consume =>
    simp only [step] at hstep
    by_cases hd : s.isDone = true
    · rw [if_pos hd] at hstep; cases hstep
    rw [if_neg hd] at hstep
    by_cases hcond : (s.finished = false ∨ 0 < s.reorder.length ∨ 0 < s.running)
    · rw [if_pos hcond] at hstep
      cases hl : lookupR s.reorder s.sidx with
      | none => rw [hl] at hstep; cases hstep
      | some b =>
        cases b with
        | false => rw [hl] at hstep; cases hstep
        | true =>
          rw [hl] at hstep
          have hmemfl : s.sidx ∈ List.range' s.sidx (s.nextIdx - s.sidx) ∧ fl s.sidx = true :=
            lookupR_keyed_inv (hre ▸ hl)
          have hdpos : 1 ≤ s.nextIdx - s.sidx := by
            have := List.mem_range'_1.mp hmemfl.1
            omega
          cases hres : cfg.res s.sidx with
          | error err =>
            rw [hres] at hstep
            simp only [Option.some.injEq] at hstep
            subst hstep
            refine ⟨hinv.sidx_le, hinv.next_le, ⟨fl, hre, hrun⟩, hinv.run_le, hinv.reo_le,
              hinv.subs_eq, ?_, hinv.out_eq, hinv.sidx_ok, ?_, ?_, ?_⟩
            · intro hc; cases hc
            · intro _; rfl
            · intro e0 _; rfl
            · intro _; exact Or.inl rfl
          | ok v =>
            rw [hres] at hstep
            simp only [Option.some.injEq] at hstep
            subst hstep
            have hd1 : s.nextIdx - s.sidx = (s.nextIdx - s.sidx - 1) + 1 := by omega
            have harg : s.nextIdx - s.sidx - 1 = s.nextIdx - (s.sidx + 1) := by omega
            have hsplit : List.range' s.sidx (s.nextIdx - s.sidx)
                = s.sidx :: List.range' (s.sidx + 1) (s.nextIdx - s.sidx - 1) := by
              conv_lhs => rw [hd1]
              rw [List.range'_succ]
            have hfilter : (List.range' s.sidx (s.nextIdx - s.sidx)).filter
                  (fun j => !(j == s.sidx))
                = List.range' (s.sidx + 1) (s.nextIdx - s.sidx - 1) := by
              rw [hsplit, List.filter_cons]
              have h1 : (!(s.sidx == s.sidx)) = false := by simp
              rw [h1]
              simp only [Bool.false_eq_true, if_false]
              apply List.filter_eq_self.mpr
              intro j hj
              have h2 := List.mem_range'_1.mp hj
              simp only [Bool.not_eq_eq_eq_not, Bool.not_true, beq_eq_false_iff_ne, ne_eq]
              omega
            have hrm : removeKey s.reorder s.sidx
                = (List.range' (s.sidx + 1) (s.nextIdx - (s.sidx + 1))).map
                    (fun j => (j, fl j)) := by
              rw [hre, removeKey_keyed, hfilter, harg]
            have hrun1 : s.running
                = ((List.range' (s.sidx + 1) (s.nextIdx - (s.sidx + 1))).filter
                    (fun j => !(fl j))).length := by
              rw [hrun, hsplit, List.filter_cons]
              rw [show (!(fl s.sidx)) = false by rw [hmemfl.2]; rfl]
              simp only [Bool.false_eq_true, if_false]
              rw [harg]
            set s1 : SchedState E V := { s with reorder := removeKey s.reorder s.sidx }
              with hs1
            have hsh1 : shapeAt (s.sidx + 1) s1 := ⟨fl, hrm, hrun1⟩
            have ha1 : s.sidx + 1 ≤ s1.nextIdx := by
              show s.sidx + 1 ≤ s.nextIdx
              omega
            have hrsh := @refill_shapeAt E V cfg _ _ ha1 hsh1
            have hsx : (refill cfg s1).sidx = s.sidx := refill_sidx s1
            have hout : (refill cfg s1).out = s.out := refill_out s1
            have hid : (refill cfg s1).isDone = s.isDone := refill_isDone s1
            have herr : (refill cfg s1).errRaised = s.errRaised := refill_errRaised s1
            refine ⟨?_, ?_, ?_, ?_, ?_, ?_, ?_, ?_, ?_, ?_, ?_, ?_⟩
            · show (refill cfg s1).sidx + 1 ≤ (refill cfg s1).nextIdx
              rw [hsx]
              exact hrsh.2
            · show (refill cfg s1).nextIdx ≤ cfg.N
              exact refill_next_le hinv.next_le
            · show shapeAt ((refill cfg s1).sidx + 1) _
              rw [hsx]
              obtain ⟨fl3, h3a, h3b⟩ := hrsh.1
              exact ⟨fl3, h3a, h3b⟩
            · show (refill cfg s1).running ≤ cfg.prefetch
              exact refill_run_le hinv.run_le
            · show (refill cfg s1).reorder.length ≤ cfg.backlog
              apply refill_reo_le
              show (removeKey s.reorder s.sidx).length ≤ cfg.backlog
              exact Nat.le_trans (List.length_filter_le _ _) hinv.reo_le
            · show (refill cfg s1).subs = List.range (refill cfg s1).nextIdx
              apply refill_subs
              exact hinv.subs_eq
            · intro hc
              exact refill_post s1 hc
            · show (refill cfg s1).out ++ [v]
                = (List.range ((refill cfg s1).sidx + 1)).filterMap
                    (fun i => (cfg.res i).toOption)
              rw [hout, hsx, List.range_succ, List.filterMap_append, hinv.out_eq]
              simp [List.filterMap_cons, hres, Except.toOption]
            · intro j hj
              show (cfg.res j).isOk = true
              rw [hsx] at hj
              rcases Nat.lt_succ_iff_lt_or_eq.mp hj with h1 | h1
              · exact hinv.sidx_ok j h1
              · subst h1; rw [hres]; rfl
            · intro h
              show (refill cfg s1).finished = true
              rw [hid] at h
              exact absurd h hd
            · intro e0 h
              rw [herr] at h
              exact absurd (hinv.err_done e0 h) hd
            · intro hfin
              by_cases hsf : s.finished = true
              · have hrid : refill cfg s1 = s1 := refill_finished_id s1 hsf
                rcases hinv.fin_reason hsf with h1 | h2 | ⟨j, e0, hj, hjerr⟩
                · exact absurd h1 hd
                · refine Or.inr (Or.inl ?_)
                  show (refill cfg s1).nextIdx = cfg.N
                  rw [hrid]
                  exact h2
                · refine Or.inr (Or.inr ⟨j, e0, ?_, hjerr⟩)
                  have hjm := lookupR_keyed_inv (hre ▸ hj)
                  have hjne : j ≠ s.sidx := by
                    intro hc
                    rw [hc, hres] at hjerr
                    cases hjerr
                  have hjmem : j ∈ List.range' (s.sidx + 1) (s.nextIdx - (s.sidx + 1)) := by
                    have h3 := List.mem_range'_1.mp hjm.1
                    apply List.mem_range'_1.mpr
                    omega
                  show lookupR (refill cfg s1).reorder j = some true
                  rw [hrid]
                  show lookupR (removeKey s.reorder s.sidx) j = some true
                  rw [hrm, lookupR_keyed hjmem, hjm.2]
              · have hsf2 : s.finished = false := by simpa using hsf
                rcases refill_fin (s := s1) hinv.next_le hfin with h1 | h2
                · exact absurd (hsf2.symm.trans h1) (by simp)
                · exact Or.inr (Or.inl h2)
    · rw [if_neg hcond] at hstep
      simp only [Option.some.injEq] at hstep
      subst hstep
      refine ⟨hinv.sidx_le, hinv.next_le, ⟨fl, hre, hrun⟩, hinv.run_le, hinv.reo_le,
        hinv.subs_eq, ?_, hinv.out_eq, hinv.sidx_ok, ?_, ?_, ?_⟩
      · intro hc; cases hc
      · intro _; rfl
      · intro e0 _; rfl
      · intro _; exact Or.inl rfl

/-! ## Reachability, termination measure, progress -/

theorem runFrom_inv {tr : List Event} {s s' : SchedState E V} (hinv : Inv cfg s)
    (h : runFrom cfg s tr = some s') : Inv cfg s' := by
  induction tr generalizing s with
  | nil =>
    simp only [runFrom, Option.some.injEq] at h
    subst h
    exact hinv
  | cons e tr ih =>
    unfold runFrom at h
    cases hs : step cfg e s with
    | none => rw [hs] at h; cases h
    | some s1 =>
      rw [hs] at h
      exact ih (step_inv hinv hs) h

theorem run_inv {tr : List Event} {s : SchedState E V} (h : run cfg tr = some s) :
    Inv cfg s :=
  runFrom_inv initState_inv h

theorem requestNext_phi {s : SchedState E V} (hle : s.nextIdx ≤ cfg.N) :
    phi cfg (requestNext cfg s) ≤ phi cfg s := by
  unfold requestNext
  split
  · exact Nat.le_refl _
  split
  · exact Nat.le_refl _
  · rename_i h1 h2
    unfold phi
    apply Nat.add_le_add_right
    simp only
    omega

theorem refillAux_phi (fuel : Nat) {s : SchedState E V} (hle : s.nextIdx ≤ cfg.N) :
    phi cfg (refillAux cfg fuel s) ≤ phi cfg s := by
  induction fuel generalizing s with
  | zero => simp [refillAux]
  | succ fuel ih =>
    rw [show refillAux cfg (fuel + 1) s
        = if refillGuard cfg s then refillAux cfg fuel (requestNext cfg s) else s from rfl]
    split
    · exact Nat.le_trans (ih (requestNext_next_le hle)) (requestNext_phi hle)
    · exact Nat.le_refl _

theorem refill_phi {s : SchedState E V} (hle : s.nextIdx ≤ cfg.N) :
    phi cfg (refill cfg s) ≤ phi cfg s := by
  unfold refill
  split
  · exact Nat.le_refl _
  · exact refillAux_phi _ hle

/-- Every step strictly decreases the termination measure `phi`. -/
theorem step_phi {s s' : SchedState E V} {e : Event} (hinv : Inv cfg s)
    (hstep : step cfg e s = some s') : phi cfg s' < phi cfg s := by
  obtain ⟨fl, hre, hrun⟩ := hinv.shape
  cases e with
  | close =>
    simp only [step] at hstep
    by_cases hd : s.isDone = true
    · rw [if_pos hd] at hstep; cases hstep
    · rw [if_neg hd] at hstep
      simp only [Option.some.injEq] at hstep
      subst hstep
      have hd2 : s.isDone = false := by simpa using hd
      simp [phi, hd2]
  | complete i =>
    simp only [step] at hstep
    cases hl : lookupR s.reorder i with
    | none => rw [hl] at hstep; cases hstep
    | some b =>
      cases b with
      | true => rw [hl] at hstep; cases hstep
      | false =>
        rw [hl] at hstep
        simp only [Option.some.injEq] at hstep
        have hmemfl : i ∈ List.range' s.sidx (s.nextIdx - s.sidx) ∧ fl i = false :=
          lookupR_keyed_inv (hre ▸ hl)
        have hrpos : 1 ≤ s.running := by
          rw [hrun]
          exact List.length_pos_of_mem
            (List.mem_filter.mpr ⟨hmemfl.1, by rw [hmemfl.2]; rfl⟩)
        by_cases hf : s.finished = true
        · rw [finishedCB_eq_of_finished hf] at hstep
          subst hstep
          unfold phi
          apply Nat.add_lt_add_right
          simp only
          omega
        · have hf2 : s.finished = false := by simpa using hf
          cases hres : cfg.res i with
          | error e0 =>
            rw [finishedCB_eq_of_error hf2 hres] at hstep
            subst hstep
            unfold phi
            apply Nat.add_lt_add_right
            simp only
            omega
          | ok v =>
            rw [finishedCB_eq_of_ok hf2 hres] at hstep
            subst hstep
            set s1 : SchedState E V :=
              { s with running := s.running - 1, reorder := markDone s.reorder i } with hs1
            have h1 : phi cfg (refill cfg s1) ≤ phi cfg s1 :=
              refill_phi (show s1.nextIdx ≤ cfg.N from hinv.next_le)
            have h2 : phi cfg s1 < phi cfg s := by
              unfold phi
              apply Nat.add_lt_add_right
              simp only
              omega
            exact Nat.lt_of_le_of_lt h1 h2
  | consume =>
    simp only [step] at hstep
    by_cases hd : s.isDone = true
    · rw [if_pos hd] at hstep; cases hstep
    rw [if_neg hd] at hstep
    have hd2 : s.isDone = false := by simpa using hd
    by_cases hcond : (s.finished = false ∨ 0 < s.reorder.length ∨ 0 < s.running)
    · rw [if_pos hcond] at hstep
      cases hl : lookupR s.reorder s.sidx with
      | none => rw [hl] at hstep; cases hstep
      | some b =>
        cases b with
        | false => rw [hl] at hstep; cases hstep
        | true =>
          rw [hl] at hstep
          have hmemfl : s.sidx ∈ List.range' s.sidx (s.nextIdx - s.sidx) ∧ fl s.sidx = true :=
            lookupR_keyed_inv (hre ▸ hl)
          have hdpos : 1 ≤ s.nextIdx - s.sidx := by
            have := List.mem_range'_1.mp hmemfl.1
            omega
          have hsiN : s.sidx < cfg.N := by
            have := hinv.next_le
            omega
          cases hres : cfg.res s.sidx with
          | error err =>
            rw [hres] at hstep
            simp only [Option.some.injEq] at hstep
            subst hstep
            simp [phi, hd2]
          | ok v =>
            rw [hres] at hstep
            simp only [Option.some.injEq] at hstep
            subst hstep
            set s1 : SchedState E V := { s with reorder := removeKey s.reorder s.sidx }
              with hs1
            have hsx : (refill cfg s1).sidx = s.sidx := refill_sidx s1
            have h1 : phi cfg (refill cfg s1) ≤ phi cfg s1 :=
              refill_phi (show s1.nextIdx ≤ cfg.N from hinv.next_le)
            have h2 : phi cfg s1 = phi cfg s := rfl
            have h3 : phi cfg { refill cfg s1 with
                sidx := (refill cfg s1).sidx + 1,
                out := (refill cfg s1).out ++ [v] } < phi cfg (refill cfg s1) := by
              unfold phi
              apply Nat.add_lt_add_right
              simp only
              rw [hsx]
              omega
            show phi cfg { refill cfg s1 with
                sidx := (refill cfg s1).sidx + 1,
                out := (refill cfg s1).out ++ [v] } < phi cfg s
            omega
    · rw [if_neg hcond] at hstep
      simp only [Option.some.injEq] at hstep
      subst hstep
      simp [phi, hd2]

/-- From every reachable, not-yet-exited state (with a positive effective
    prefetch and backlog) some event is enabled: the system never deadlocks. -/
theorem progress {s : SchedState E V} (hinv : Inv cfg s) (hpf : 1 ≤ cfg.prefetch)
    (hbl : 1 ≤ cfg.backlog) (hd : s.isDone = false) :
    ∃ e s', step cfg e s = some s' := by
  obtain ⟨fl, hre, hrun⟩ := hinv.shape
  by_cases hr : 1 ≤ s.running
  · -- some future is pending, it can complete
    have hpos : 0 < ((List.range' s.sidx (s.nextIdx - s.sidx)).filter
        (fun j => !(fl j))).length := by omega
    obtain ⟨i, hifil⟩ := List.exists_mem_of_length_pos hpos
    have him := List.mem_filter.mp hifil
    have hfli : fl i = false := by simpa using him.2
    refine ⟨Event.complete i, finishedCB cfg i s, ?_⟩
    simp only [step]
    rw [hre, lookupR_keyed him.1, hfli]
  · have hr0 : s.running = 0 := by omega
    have hlen : s.reorder.length = s.nextIdx - s.sidx := shape_length ⟨fl, hre, hrun⟩
    by_cases hbuf : 1 ≤ s.reorder.length
    · -- the cursor entry exists and its future is done: the consumer can act
      have hd0 : 1 ≤ s.nextIdx - s.sidx := by omega
      have hsm : s.sidx ∈ List.range' s.sidx (s.nextIdx - s.sidx) :=
        List.mem_range'_1.mpr (by omega)
      have hfls : fl s.sidx = true := by
        by_contra hc
        have hc2 : fl s.sidx = false := by simpa using hc
        have hmemf : s.sidx ∈ (List.range' s.sidx (s.nextIdx - s.sidx)).filter
            (fun j => !(fl j)) := List.mem_filter.mpr ⟨hsm, by rw [hc2]; rfl⟩
        have := List.length_pos_of_mem hmemf
        omega
      have hbuf2 : 0 < s.reorder.length := hbuf
      cases hres : cfg.res s.sidx with
      | error err =>
        refine ⟨Event.consume,
          { s with errRaised := some err, isDone := true, finished := true }, ?_⟩
        simp only [step]
        rw [if_neg (by simp [hd]), if_pos (Or.inr (Or.inl hbuf2)), hre,
          lookupR_keyed hsm, hfls, hres]
      | ok v =>
        refine ⟨Event.consume,
          { refill cfg { s with reorder := removeKey s.reorder s.sidx } with
              sidx := (refill cfg { s with reorder := removeKey s.reorder s.sidx }).sidx + 1,
              out := (refill cfg { s with reorder := removeKey s.reorder s.sidx }).out ++ [v] },
          ?_⟩
        simp only [step]
        rw [if_neg (by simp [hd]), if_pos (Or.inr (Or.inl hbuf2)), hre,
          lookupR_keyed hsm, hfls, hres]
    · have hbuf0 : s.reorder.length = 0 := by omega
      by_cases hf : s.finished = true
      · -- loop condition fails: the generator exits normally
        refine ⟨Event.consume, { s with isDone := true, finished := true }, ?_⟩
        simp only [step]
        rw [if_neg (by simp [hd]), if_neg (by simp [hf, hbuf0, hr0])]
      · have hf2 : s.finished = false := by simpa using hf
        rcases hinv.refilled hf2 with h1 | h2 <;> omega

/-! ## Characterization of the exit state (no early close) -/

/-- A `complete` step leaves the consumer-side fields untouched. -/
theorem step_complete_proj {s s' : SchedState E V} {i : Nat}
    (hstep : step cfg (Event.complete i) s = some s') :
    s'.sidx = s.sidx ∧ s'.out = s.out ∧ s'.isDone = s.isDone
    ∧ s'.errRaised = s.errRaised := by
  simp only [step] at hstep
  cases hl : lookupR s.reorder i with
  | none => rw [hl] at hstep; cases hstep
  | some b =>
    cases b with
    | true => rw [hl] at hstep; cases hstep
    | false =>
      rw [hl] at hstep
      simp only [Option.some.injEq] at hstep
      by_cases hf : s.finished = true
      · rw [finishedCB_eq_of_finished hf] at hstep
        subst hstep
        exact ⟨rfl, rfl, rfl, rfl⟩
      · have hf2 : s.finished = false := by simpa using hf
        cases hres : cfg.res i with
        | error e0 =>
          rw [finishedCB_eq_of_error hf2 hres] at hstep
          subst hstep
          exact ⟨rfl, rfl, rfl, rfl⟩
        | ok v =>
          rw [finishedCB_eq_of_ok hf2 hres] at hstep
          subst hstep
          exact ⟨refill_sidx _, refill_out _, refill_isDone _, refill_errRaised _⟩

/-- In a run without errors, a step other than `close` preserves the fact
    that generator exit implies full delivery. -/
theorem step_done_char_ok {s s' : SchedState E V} {e : Event}
    (hok : ∀ i, i < cfg.N → (cfg.res i).isOk = true)
    (hinv : Inv cfg s) (hne : e ≠ Event.close)
    (hch : s.isDone = true → s.sidx = cfg.N ∧ s.errRaised = none)
    (hstep : step cfg e s = some s') :
    s'.isDone = true → s'.sidx = cfg.N ∧ s'.errRaised = none := by
  obtain ⟨fl, hre, hrun⟩ := hinv.shape
  cases e with
  | close => exact absurd rfl hne
  | complete i =>
    obtain ⟨h1, h2, h3, h4⟩ := step_complete_proj hstep
    intro h
    rw [h3] at h
    rw [h1, h4]
    exact hch h
  | consume =>
    simp only [step] at hstep
    by_cases hd : s.isDone = true
    · rw [if_pos hd] at hstep; cases hstep
    rw [if_neg hd] at hstep
    by_cases hcond : (s.finished = false ∨ 0 < s.reorder.length ∨ 0 < s.running)
    · rw [if_pos hcond] at hstep
      cases hl : lookupR s.reorder s.sidx with
      | none => rw [hl] at hstep; cases hstep
      | some b =>
        cases b with
        | false => rw [hl] at hstep; cases hstep
        | true =>
          rw [hl] at hstep
          have hmemfl : s.sidx ∈ List.range' s.sidx (s.nextIdx - s.sidx) ∧ fl s.sidx = true :=
            lookupR_keyed_inv (hre ▸ hl)
          have hsiN : s.sidx < cfg.N := by
            have h5 := List.mem_range'_1.mp hmemfl.1
            have h6 := hinv.next_le
            omega
          cases hres : cfg.res s.sidx with
          | error err =>
            have h7 := hok s.sidx hsiN
            rw [hres] at h7
            cases h7
          | ok v =>
            rw [hres] at hstep
            simp only [Option.some.injEq] at hstep
            subst hstep
            intro h
            have h8 : (refill cfg { s with
                reorder := removeKey s.reorder s.sidx }).isDone = s.isDone :=
              refill_isDone _
            exact absurd (h8 ▸ h) hd
    · rw [if_neg hcond] at hstep
      simp only [Option.some.injEq] at hstep
      subst hstep
      intro _
      push_neg at hcond
      obtain ⟨hcf, hcl2, hcr⟩ := hcond
      have hf : s.finished = true := by
        cases hfin : s.finished with
        | true => rfl
        | false => exact absurd hfin hcf
      have hlen0 : s.reorder.length = 0 := by omega
      have hreo : s.reorder = [] := List.length_eq_zero.mp hlen0
      have hsn : s.sidx = s.nextIdx := by
        have h9 := shape_length ⟨fl, hre, hrun⟩
        have h10 := hinv.sidx_le
        omega
      rcases hinv.fin_reason hf with h11 | h12 | ⟨j, e0, hj, _⟩
      · exact absurd h11 hd
      · constructor
        · show s.sidx = cfg.N
          omega
        · show s.errRaised = none
          cases herr : s.errRaised with
          | none => rfl
          | some e1 => exact absurd (hinv.err_done e1 herr) hd
      · rw [hreo] at hj
        cases hj

theorem runFrom_done_char_ok {tr : List Event} {s s' : SchedState E V}
    (hok : ∀ i, i < cfg.N → (cfg.res i).isOk = true)
    (hcl : Event.close ∉ tr) (hinv : Inv cfg s)
    (hch : s.isDone = true → s.sidx = cfg.N ∧ s.errRaised = none)
    (h : runFrom cfg s tr = some s') :
    s'.isDone = true → s'.sidx = cfg.N ∧ s'.errRaised = none := by
  induction tr generalizing s with
  | nil =>
    simp only [runFrom, Option.some.injEq] at h
    subst h
    exact hch
  | cons e tr ih =>
    unfold runFrom at h
    cases hs : step cfg e s with
    | none => rw [hs] at h; cases h
    | some s1 =>
      rw [hs] at h
      have hne : e ≠ Event.close := fun hc => hcl (hc ▸ List.mem_cons_self e tr)
      have hcl2 : Event.close ∉ tr := fun hc => hcl (List.mem_cons_of_mem e hc)
      exact ih hcl2 (step_inv hinv hs) (step_done_char_ok hok hinv hne hch hs) h

/-- In a run whose first failure is at index `k`, a step other than `close`
    preserves the fact that generator exit implies the error was raised with
    the cursor at `k`. -/
theorem step_done_char_err {s s' : SchedState E V} {e : Event} {k : Nat} {e0 : E}
    (hk : k < cfg.N) (hok : ∀ i, i < k → (cfg.res i).isOk = true)
    (herr : cfg.res k = Except.error e0)
    (hinv : Inv cfg s) (hne : e ≠ Event.close)
    (hch : s.isDone = true → s.errRaised = some e0 ∧ s.sidx = k)
    (hstep : step cfg e s = some s') :
    s'.isDone = true → s'.errRaised = some e0 ∧ s'.sidx = k := by
  obtain ⟨fl, hre, hrun⟩ := hinv.shape
  have hsk : s.sidx ≤ k := by
    by_contra hc
    have h1 := hinv.sidx_ok k (by omega)
    rw [herr] at h1
    cases h1
  cases e with
  | close => exact absurd rfl hne
  | complete i =>
    obtain ⟨h1, h2, h3, h4⟩ := step_complete_proj hstep
    intro h
    rw [h3] at h
    rw [h1, h4]
    exact hch h
  | consume =>
    simp only [step] at hstep
    by_cases hd : s.isDone = true
    · rw [if_pos hd] at hstep; cases hstep
    rw [if_neg hd] at hstep
    by_cases hcond : (s.finished = false ∨ 0 < s.reorder.length ∨ 0 < s.running)
    · rw [if_pos hcond] at hstep
      cases hl : lookupR s.reorder s.sidx with
      | none => rw [hl] at hstep; cases hstep
      | some b =>
        cases b with
        | false => rw [hl] at hstep; cases hstep
        | true =>
          rw [hl] at hstep
          cases hres : cfg.res s.sidx with
          | error err =>
            rw [hres] at hstep
            simp only [Option.some.injEq] at hstep
            subst hstep
            intro _
            have hsik : s.sidx = k := by
              by_contra hc
              have h5 := hok s.sidx (by omega)
              rw [hres] at h5
              cases h5
            have herr2 : err = e0 := by
              rw [hsik, herr] at hres
              exact (Except.error.injEq _ _).mp hres.symm
            exact ⟨by rw [herr2], hsik⟩
          | ok v =>
            rw [hres] at hstep
            simp only [Option.some.injEq] at hstep
            subst hstep
            intro h
            have h8 : (refill cfg { s with
                reorder := removeKey s.reorder s.sidx }).isDone = s.isDone :=
              refill_isDone _
            exact absurd (h8 ▸ h) hd
    · rw [if_neg hcond] at hstep
      simp only [Option.some.injEq] at hstep
      subst hstep
      intro _
      push_neg at hcond
      obtain ⟨hcf, hcl2, hcr⟩ := hcond
      have hf : s.finished = true := by
        cases hfin : s.finished with
        | true => rfl
        | false => exact absurd hfin hcf
      have hlen0 : s.reorder.length = 0 := by omega
      have hreo : s.reorder = [] := List.length_eq_zero.mp hlen0
      have hsn : s.sidx = s.nextIdx := by
        have h9 := shape_length ⟨fl, hre, hrun⟩
        have h10 := hinv.sidx_le
        omega
      rcases hinv.fin_reason hf with h11 | h12 | ⟨j, e1, hj, _⟩
      · exact absurd h11 hd
      · exact absurd h12 (by have := hinv.next_le; omega)
      · rw [hreo] at hj
        cases hj

theorem runFrom_done_char_err {tr : List Event} {s s' : SchedState E V} {k : Nat} {e0 : E}
    (hk : k < cfg.N) (hok : ∀ i, i < k → (cfg.res i).isOk = true)
    (herr : cfg.res k = Except.error e0)
    (hcl : Event.close ∉ tr) (hinv : Inv cfg s)
    (hch : s.isDone = true → s.errRaised = some e0 ∧ s.sidx = k)
    (h : runFrom cfg s tr = some s') :
    s'.isDone = true → s'.errRaised = some e0 ∧ s'.sidx = k := by
  induction tr generalizing s with
  | nil =>
    simp only [runFrom, Option.some.injEq] at h
    subst h
    exact hch
  | cons e tr ih =>
    unfold runFrom at h
    cases hs : step cfg e s with
    | none => rw [hs] at h; cases h
    | some s1 =>
      rw [hs] at h
      have hne : e ≠ Event.close := fun hc => hcl (hc ▸ List.mem_cons_self e tr)
      have hcl2 : Event.close ∉ tr := fun hc => hcl (List.mem_cons_of_mem e hc)
      exact ih hcl2 (step_inv hinv hs)
        (step_done_char_err hk hok herr hinv hne hch hs) h

/-- When every result in the list is a success, `filterMap` over `toOption`
    keeps one value per index. -/
theorem filterMap_toOption_length (res0 : Nat → Except E V) :
    ∀ l : List Nat, (∀ i ∈ l, (res0 i).isOk = true) →
      (l.filterMap (fun i => (res0 i).toOption)).length = l.length := by
  intro l
  induction l with
  | nil => intro _; rfl
  | cons a l ih =>
    intro h
    rw [List.filterMap_cons]
    cases hres : res0 a with
    | error e0 =>
      have h1 := h a (List.mem_cons_self a l)
      rw [hres] at h1
      cases h1
    | ok v =>
      show (v :: List.filterMap (fun i => (res0 i).toOption) l).length = (a :: l).length
      simp only [List.length_cons]
      rw [ih (fun i hi => h i (List.mem_cons_of_mem a hi))]

/-! ## Frozen submissions after the terminal flag (claim C5) -/

/-- Once `finished` is set, no step changes the submission history, and the
    flag never clears. -/
theorem step_subs_frozen {s s' : SchedState E V} {e : Event} (hf : s.finished = true)
    (hstep : step cfg e s = some s') : s'.subs = s.subs ∧ s'.finished = true := by
  cases e with
  | close =>
    simp only [step] at hstep
    by_cases hd : s.isDone = true
    · rw [if_pos hd] at hstep; cases hstep
    · rw [if_neg hd] at hstep
      simp only [Option.some.injEq] at hstep
      subst hstep
      exact ⟨rfl, rfl⟩
  | complete i =>
    simp only [step] at hstep
    cases hl : lookupR s.reorder i with
    | none => rw [hl] at hstep; cases hstep
    | some b =>
      cases b with
      | true => rw [hl] at hstep; cases hstep
      | false =>
        rw [hl] at hstep
        simp only [Option.some.injEq] at hstep
        rw [finishedCB_eq_of_finished hf] at hstep
        subst hstep
        exact ⟨rfl, hf⟩
  | consume =>
    simp only [step] at hstep
    by_cases hd : s.isDone = true
    · rw [if_pos hd] at hstep; cases hstep
    rw [if_neg hd] at hstep
    by_cases hcond : (s.finished = false ∨ 0 < s.reorder.length ∨ 0 < s.running)
    · rw [if_pos hcond] at hstep
      cases hl : lookupR s.reorder s.sidx with
      | none => rw [hl] at hstep; cases hstep
      | some b =>
        cases b with
        | false => rw [hl] at hstep; cases hstep
        | true =>
          rw [hl] at hstep
          cases hres : cfg.res s.sidx with
          | error err =>
            rw [hres] at hstep
            simp only [Option.some.injEq] at hstep
            subst hstep
            exact ⟨rfl, rfl⟩
          | ok v =>
            rw [hres] at hstep
            simp only [Option.some.injEq] at hstep
            subst hstep
            have hrid : refill cfg { s with reorder := removeKey s.reorder s.sidx }
                = { s with reorder := removeKey s.reorder s.sidx } :=
              refill_finished_id _ hf
            constructor
            · show (refill cfg { s with reorder := removeKey s.reorder s.sidx }).subs = s.subs
              rw [hrid]
            · show (refill cfg { s with reorder := removeKey s.reorder s.sidx }).finished = true
              rw [hrid]
              exact hf
    · rw [if_neg hcond] at hstep
      simp only [Option.some.injEq] at hstep
      subst hstep
      exact ⟨rfl, rfl⟩

theorem runFrom_subs_frozen {tr : List Event} {s s' : SchedState E V}
    (hf : s.finished = true) (h : runFrom cfg s tr = some s') :
    s'.subs = s.subs ∧ s'.finished = true := by
  induction tr generalizing s with
  | nil =>
    simp only [runFrom, Option.some.injEq] at h
    subst h
    exact ⟨rfl, hf⟩
  | cons e tr ih =>
    unfold runFrom at h
    cases hs : step cfg e s with
    | none => rw [hs] at h; cases h
    | some s1 =>
      rw [hs] at h
      obtain ⟨h1, h2⟩ := step_subs_frozen hf hs
      obtain ⟨h3, h4⟩ := ih h2 h
      exact ⟨h3.trans h1, h4⟩

/-! ## The degenerate zero-prefetch configuration (claim C8) -/

/-- With an effective prefetch of zero nothing is ever admitted: the initial
    `_refill` returns without submitting. -/
theorem initState_zero_prefetch (hpf : cfg.prefetch = 0) :
    initState cfg = (emptySched : SchedState E V) := by
  unfold initState refill
  rw [if_neg (by simp [emptySched])]
  have h1 : cfg.prefetch + 1 - (emptySched : SchedState E V).running = 1 := by
    simp [emptySched, hpf]
  rw [h1]
  show (if refillGuard cfg _ then _ else _) = _
  rw [if_neg]
  intro hg
  have h2 := hg.2.1
  rw [hpf] at h2
  simp at h2

/-- From the post-close state of the zero-prefetch system no event is enabled. -/
theorem zero_prefetch_closed_stuck {s' : SchedState E V} {tr : List Event}
    (h : runFrom cfg (closedSched : SchedState E V) tr = some s') :
    s' = (closedSched : SchedState E V) := by
  cases tr with
  | nil =>
    simp only [runFrom, Option.some.injEq] at h
    exact h.symm
  | cons e tr =>
    unfold runFrom at h
    cases e with
    | complete i => simp [step, lookupR, closedSched, emptySched] at h
    | consume => simp [step, closedSched, emptySched] at h
    | close => simp [step, closedSched, emptySched] at h

/-- Every run of the zero-prefetch system stays at the empty initial state,
    except that a `close` may set the two flags. -/
theorem runFrom_zero_prefetch (hpf : cfg.prefetch = 0) :
    ∀ (tr : List Event) (s' : SchedState E V),
      runFrom cfg (emptySched : SchedState E V) tr = some s' →
      (s' = (emptySched : SchedState E V) ∧ Event.close ∉ tr)
      ∨ (s' = (closedSched : SchedState E V) ∧ Event.close ∈ tr) := by
  intro tr
  induction tr with
  | nil =>
    intro s' h
    simp only [runFrom, Option.some.injEq] at h
    exact Or.inl ⟨h.symm, by simp⟩
  | cons e tr ih =>
    intro s' h
    unfold runFrom at h
    cases e with
    | complete i => simp [step, lookupR, emptySched] at h
    | consume => simp [step, lookupR, emptySched] at h
    | close =>
      simp only [step] at h
      rw [if_neg (by simp [emptySched])] at h
      have h2 : runFrom cfg (closedSched : SchedState E V) tr = some s' := h
      have h3 := zero_prefetch_closed_stuck h2
      exact Or.inr ⟨h3, List.mem_cons_self _ _⟩

/-- C6: if `prefetch` is unspecified or ≤ 0 the effective prefetch is the work
    source's worker count (`core.num_threads`), otherwise `prefetch` itself;
    if `backlog` is unspecified or negative the effective backlog is three
    times the effective prefetch; a specified backlog below the effective
    prefetch is clamped up to the effective prefetch, and one at or above it
    is kept. -/
theorem frames_config_normalization (numThreads : Int) (prefetch backlog : Option Int) :
    (prefetch = none → normalizePrefetch numThreads prefetch = numThreads)
  ∧ (∀ p, prefetch = some p → p ≤ 0 → normalizePrefetch numThreads prefetch = numThreads)
  ∧ (∀ p, prefetch = some p → 0 < p → normalizePrefetch numThreads prefetch = p)
  ∧ (backlog = none →
      normalizeBacklog (normalizePrefetch numThreads prefetch) backlog
        = 3 * normalizePrefetch numThreads prefetch)
  ∧ (∀ b, backlog = some b → b < 0 →
      normalizeBacklog (normalizePrefetch numThreads prefetch) backlog
        = 3 * normalizePrefetch numThreads prefetch)
  ∧ (∀ b, backlog = some b → 0 ≤ b → b < normalizePrefetch numThreads prefetch →
      normalizeBacklog (normalizePrefetch numThreads prefetch) backlog
        = normalizePrefetch numThreads prefetch)
  ∧ (∀ b, backlog = some b → 0 ≤ b → normalizePrefetch numThreads prefetch ≤ b →
      normalizeBacklog (normalizePrefetch numThreads prefetch) backlog = b) := by
  refine ⟨?_, ?_, ?_, ?_, ?_, ?_, ?_⟩
  · intro h; subst h; rfl
  · intro p hp hple; subst hp; simp [normalizePrefetch, hple]
  · intro p hp hppos; subst hp; simp [normalizePrefetch]; omega
  · intro h; subst h; simp [normalizeBacklog]; ring
  · intro b hb hbneg; subst hb; simp [normalizeBacklog, hbneg]; ring
  · intro b hb hb0 hblt; subst hb; simp [normalizeBacklog]; omega
  · intro b hb hb0 hble; subst hb; simp [normalizeBacklog]; omega

/-- Witness for `frames_config_normalization` at concrete inputs. -/
theorem frames_config_normalization_witness :
    normalizePrefetch 4 none = 4
  ∧ normalizeBacklog (normalizePrefetch 4 none) none = 3 * normalizePrefetch 4 none
  ∧ normalizeBacklog (normalizePrefetch 4 none) (some 2) = normalizePrefetch 4 none :=
  ⟨(frames_config_normalization 4 none none).1 rfl,
   (frames_config_normalization 4 none none).2.2.2.1 rfl,
   (frames_config_normalization 4 none (some 2)).2.2.2.2.2.1 2 rfl (by decide) (by decide)⟩

/-! ## `to_float`: claim C10 -/

/-- C10: a string containing any character outside `0123456789./` makes
    `to_float` fail with the invalid-characters `ArgumentTypeError`, before
    any evaluation is attempted (the error is the one raised by the charset
    check, not the one converted from an evaluation exception); a charset-clean
    string containing a slash is handed to `eval`, whose successful value is
    returned, and whose `ZeroDivisionError` is converted into an
    `ArgumentTypeError` rather than propagated. -/
theorem to_float_charset_and_division :
    (∀ l : List Char, l.any (fun c => !(allowedChar c)) = true →
      to_float l = .error .invalidChars)
  ∧ (∀ l : List Char, l.any (fun c => !(allowedChar c)) = false → '/' ∈ l →
      ∀ q, pyEvalDiv l = .ok q → to_float l = .ok q)
  ∧ (∀ l : List Char, l.any (fun c => !(allowedChar c)) = false → '/' ∈ l →
      pyEvalDiv l = .error .zeroDiv → to_float l = .error .parseErr) := by
  refine ⟨?_, ?_, ?_⟩
  · intro l h; simp [to_float, h]
  · intro l h hs q hq; simp [to_float, h, hs, hq]
  · intro l h hs hq; simp [to_float, h, hs, hq]

/-- Witness for `to_float_charset_and_division` at concrete inputs:
    `to_float "1a"`, `to_float "1/2"` and `to_float "1/0"`. -/
theorem to_float_charset_and_division_witness :
    to_float ['1', 'a'] = .error .invalidChars
  ∧ to_float ['1', '/', '2'] = .ok (1 / 2 : ℚ)
  ∧ to_float ['1', '/', '0'] = .error .parseErr :=
  ⟨to_float_charset_and_division.1 _ (by decide),
   to_float_charset_and_division.2.1 _ (by decide) (by decide) _ (by rfl),
   to_float_charset_and_division.2.2 _ (by decide) (by decide) (by rfl)⟩

/-! ## `descale_cropping_args`: claim C9 -/

/-- Bounds of the `base - 2 * floor((base - src) / 2)` construction: the result
    exceeds `src` by a value in `[0, 2)`. -/
theorem croppedDim_sub_bounds (b : ℤ) (s : ℚ) :
    0 ≤ croppedDim b s - s ∧ croppedDim b s - s < 2 := by
  have h1 := Int.floor_le (((b : ℚ) - s) / 2)
  have h2 := Int.lt_floor_add_one (((b : ℚ) - s) / 2)
  unfold croppedDim
  constructor <;> push_cast at h1 h2 ⊢ <;> linarith

/-- C9 (amended): under `0 < src_height ≤ base_height`, the returned arguments
    (mode `wh`) satisfy `0 ≤ cropped_height - src_height < 2` and
    `0 ≤ cropped_width - src_width < 2` (hence `src_top, src_left ∈ [0, 1)`),
    `base_height - cropped_height` is an even non-negative integer, and
    `base_width - cropped_width` is an even integer that is non-negative
    whenever `src_width ≤ base_width` (it can be negative otherwise, see
    `descale_cropping_args_width_diff_neg`); for `src_height > base_height`
    the assertion fails. -/
theorem descale_cropping_args_spec (clip : ClipDim) (sh : ℚ) (bh : ℤ) (bwOpt : Option ℤ)
    (hsh : 0 < sh) (hle : sh ≤ (bh : ℚ)) :
    (descale_cropping_args clip sh bh bwOpt ['w', 'h'] =
      some { width := some (croppedDim (bwOpt.getD (getw clip bh)) (srcWidth clip sh)),
             src_width := some (srcWidth clip sh),
             src_left := some ((croppedDim (bwOpt.getD (getw clip bh)) (srcWidth clip sh)
               - srcWidth clip sh) / 2),
             height := some (croppedDim bh sh),
             src_height := some sh,
             src_top := some ((croppedDim bh sh - sh) / 2) })
  ∧ (0 ≤ croppedDim bh sh - sh ∧ croppedDim bh sh - sh < 2)
  ∧ (0 ≤ croppedDim (bwOpt.getD (getw clip bh)) (srcWidth clip sh) - srcWidth clip sh
      ∧ croppedDim (bwOpt.getD (getw clip bh)) (srcWidth clip sh) - srcWidth clip sh < 2)
  ∧ (0 ≤ (croppedDim bh sh - sh) / 2 ∧ (croppedDim bh sh - sh) / 2 < 1)
  ∧ (0 ≤ (croppedDim (bwOpt.getD (getw clip bh)) (srcWidth clip sh) - srcWidth clip sh) / 2
      ∧ (croppedDim (bwOpt.getD (getw clip bh)) (srcWidth clip sh) - srcWidth clip sh) / 2 < 1)
  ∧ (∃ m : ℤ, (bh : ℚ) - croppedDim bh sh = 2 * m ∧ 0 ≤ m)
  ∧ (∃ m : ℤ, ((bwOpt.getD (getw clip bh) : ℤ) : ℚ)
        - croppedDim (bwOpt.getD (getw clip bh)) (srcWidth clip sh) = 2 * m
      ∧ (srcWidth clip sh ≤ ((bwOpt.getD (getw clip bh) : ℤ) : ℚ) → 0 ≤ m))
  ∧ (∀ sh' : ℚ, (bh : ℚ) < sh' → descale_cropping_args clip sh' bh bwOpt ['w', 'h'] = none) := by
  have hh := croppedDim_sub_bounds bh sh
  have hw := croppedDim_sub_bounds (bwOpt.getD (getw clip bh)) (srcWidth clip sh)
  refine ⟨?_, hh, hw, ⟨by linarith [hh.1], by linarith [hh.2]⟩,
    ⟨by linarith [hw.1], by linarith [hw.2]⟩, ?_, ?_, ?_⟩
  · unfold descale_cropping_args
    rw [if_pos hle]
    have hmw : ('w' ∈ (['w', 'h'].map Char.toLower)) := by decide
    have hmh : ('h' ∈ (['w', 'h'].map Char.toLower)) := by decide
    simp only [if_pos hmw, if_pos hmh]
  · refine ⟨⌊((bh : ℚ) - sh) / 2⌋, by unfold croppedDim; ring, ?_⟩
    exact Int.floor_nonneg.mpr (by linarith)
  · refine ⟨⌊(((bwOpt.getD (getw clip bh) : ℤ) : ℚ) - srcWidth clip sh) / 2⌋,
      by unfold croppedDim; ring, fun hswle => ?_⟩
    exact Int.floor_nonneg.mpr (by linarith)
  · intro sh' hgt
    unfold descale_cropping_args
    rw [if_neg (by linarith)]

/-- Witness for `descale_cropping_args_spec` at a concrete input
    (a 16:9 clip, base height 10, src height 9). -/
theorem descale_cropping_args_spec_witness :
    (0 : ℚ) < 9 ∧ (9 : ℚ) ≤ ((10 : ℤ) : ℚ)
  ∧ (0 ≤ croppedDim 10 9 - 9 ∧ croppedDim 10 9 - 9 < 2) :=
  ⟨by norm_num, by norm_num,
   (descale_cropping_args_spec ⟨16, 9⟩ 9 10 none (by norm_num) (by norm_num)).2.1⟩

/-- C9 counterexample: for the 3:2 clip with `base_height = 2`,
    `src_height = 2` (so the claim's precondition `base_height ≥ src_height > 0`
    holds) and the default `base_width` (`getw` rounds 3 down to 2),
    `cropped_width = 4`, so `base_width - cropped_width = -2` is negative,
    contradicting the claimed `0 ≤ base_width - cropped_width`. -/
theorem descale_cropping_args_width_diff_neg :
    ((0 : ℚ) < 2 ∧ (2 : ℚ) ≤ ((2 : ℤ) : ℚ))
  ∧ getw ⟨3, 2⟩ 2 = 2
  ∧ srcWidth ⟨3, 2⟩ 2 = 3
  ∧ descale_cropping_args ⟨3, 2⟩ 2 2 none ['w', 'h'] =
      some { width := some 4, src_width := some 3, src_left := some (1 / 2),
             height := some 2, src_height := some 2, src_top := some 0 }
  ∧ ¬ (0 ≤ ((getw ⟨3, 2⟩ 2 : ℤ) : ℚ) - croppedDim (getw ⟨3, 2⟩ 2) (srcWidth ⟨3, 2⟩ 2)) := by
  have hg : getw ⟨3, 2⟩ 2 = 2 := by
    have hc : ⌈((2 * 3 : ℤ) : ℚ) / ((2 : ℤ) : ℚ)⌉ = 3 := by
      rw [Int.ceil_eq_iff] <;> norm_num
    simp only [getw, hc]
    decide
  have hsw : srcWidth ⟨3, 2⟩ 2 = 3 := by norm_num [srcWidth]
  have hf : ⌊(((2 : ℤ) : ℚ) - 3) / 2⌋ = -1 := by
    rw [Int.floor_eq_iff] <;> norm_num
  have hcw : croppedDim 2 3 = 4 := by norm_num [croppedDim, hf]
  have hfh : ⌊(((2 : ℤ) : ℚ) - 2) / 2⌋ = 0 := by
    rw [Int.floor_eq_iff] <;> norm_num
  have hch : croppedDim 2 2 = 2 := by norm_num [croppedDim, hfh]
  refine ⟨⟨by norm_num, by norm_num⟩, hg, hsw, ?_, ?_⟩
  · unfold descale_cropping_args
    rw [if_pos (by norm_num)]
    have hmw : ('w' ∈ (['w', 'h'].map Char.toLower)) := by decide
    have hmh : ('h' ∈ (['w', 'h'].map Char.toLower)) := by decide
    simp only [if_pos hmw, if_pos hmh, Option.getD, hg, hsw, hcw, hch]
    norm_num [hcw, hch, hsw, hg]
  · rw [hg, hsw, hcw]
    norm_num

/-! ## Claim theorems for the scheduler -/

/-- C1: for a clip of length `N` whose `N` computations all succeed, whatever
    the order of the completion events (and without an early close), when the
    generator exits it has yielded exactly the `N` results in index order
    0..N-1, each exactly once, and no error; and as long as it has not
    exited, some event is enabled and strictly decreases the termination
    measure, so every maximal run does exit. -/
theorem frames_in_order_delivery (cfg : Cfg E V)
    (hpf : 1 ≤ cfg.prefetch) (hbl : 1 ≤ cfg.backlog)
    (hok : ∀ i, i < cfg.N → (cfg.res i).isOk = true)
    (tr : List Event) (hcl : Event.close ∉ tr)
    (s : SchedState E V) (h : run cfg tr = some s) :
    (s.isDone = true →
      s.out = (List.range cfg.N).filterMap (fun i => (cfg.res i).toOption)
      ∧ s.out.length = cfg.N ∧ s.errRaised = none)
  ∧ (s.isDone = false → ∃ e s', step cfg e s = some s' ∧ phi cfg s' < phi cfg s) := by
  have hinv := run_inv h
  constructor
  · intro hdone
    have hch0 : (initState cfg).isDone = true →
        (initState cfg).sidx = cfg.N ∧ (initState cfg).errRaised = none := by
      intro hc
      rw [show (initState cfg).isDone = false from by
        unfold initState; rw [refill_isDone]; rfl] at hc
      cases hc
    have hch := runFrom_done_char_ok hok hcl initState_inv hch0 h hdone
    refine ⟨?_, ?_, hch.2⟩
    · rw [hinv.out_eq, hch.1]
    · rw [hinv.out_eq, hch.1]
      exact (filterMap_toOption_length cfg.res _
        (fun i hi => hok i (List.mem_range.mp hi))).trans (List.length_range _)
  · intro hnd
    obtain ⟨e, s', hs⟩ := progress hinv hpf hbl hnd
    exact ⟨e, s', hs, step_phi hinv hs⟩

/-- Witness for `frames_in_order_delivery` at the concrete configuration
    `cfgW` and the empty trace. -/
theorem frames_in_order_delivery_witness :
    ((initState cfgW).isDone = true →
      (initState cfgW).out = (List.range cfgW.N).filterMap (fun i => (cfgW.res i).toOption)
      ∧ (initState cfgW).out.length = cfgW.N ∧ (initState cfgW).errRaised = none)
  ∧ ((initState cfgW).isDone = false →
      ∃ e s', step cfgW e (initState cfgW) = some s'
        ∧ phi cfgW s' < phi cfgW (initState cfgW)) :=
  frames_in_order_delivery cfgW (by decide) (by decide) (fun i _ => rfl) [] (by simp) _ rfl

/-- C2: if the computations at indices `0..k-1` succeed and the one at `k`
    fails, then (without an early close) the cursor never passes `k`, the
    values yielded are exactly the successes of `0..sidx-1` in order, no error
    is raised before exit, and at exit the raised error is exactly the one of
    index `k`, with the cursor at `k` and exactly the `k` preceding values
    delivered; before exit some enabled event decreases the measure. -/
theorem frames_fail_at_cursor (cfg : Cfg E V) (k : Nat) (e0 : E)
    (hpf : 1 ≤ cfg.prefetch) (hbl : 1 ≤ cfg.backlog) (hk : k < cfg.N)
    (hok : ∀ i, i < k → (cfg.res i).isOk = true) (herr : cfg.res k = Except.error e0)
    (tr : List Event) (hcl : Event.close ∉ tr)
    (s : SchedState E V) (h : run cfg tr = some s) :
    s.sidx ≤ k
  ∧ s.out = (List.range s.sidx).filterMap (fun i => (cfg.res i).toOption)
  ∧ (s.isDone = false → s.errRaised = none
      ∧ ∃ e s', step cfg e s = some s' ∧ phi cfg s' < phi cfg s)
  ∧ (s.isDone = true → s.errRaised = some e0 ∧ s.sidx = k
      ∧ s.out = (List.range k).filterMap (fun i => (cfg.res i).toOption)
      ∧ s.out.length = k) := by
  have hinv := run_inv h
  have hsk : s.sidx ≤ k := by
    by_contra hc
    have h1 := hinv.sidx_ok k (by omega)
    rw [herr] at h1
    cases h1
  refine ⟨hsk, hinv.out_eq, ?_, ?_⟩
  · intro hnd
    constructor
    · cases herr2 : s.errRaised with
      | none => rfl
      | some e1 =>
        have h2 := hinv.err_done e1 herr2
        rw [h2] at hnd
        cases hnd
    · obtain ⟨e, s', hs⟩ := progress hinv hpf hbl hnd
      exact ⟨e, s', hs, step_phi hinv hs⟩
  · intro hdone
    have hch0 : (initState cfg).isDone = true →
        (initState cfg).errRaised = some e0 ∧ (initState cfg).sidx = k := by
      intro hc
      rw [show (initState cfg).isDone = false from by
        unfold initState; rw [refill_isDone]; rfl] at hc
      cases hc
    have hch := runFrom_done_char_err hk hok herr hcl initState_inv hch0 h hdone
    refine ⟨hch.1, hch.2, ?_, ?_⟩
    · rw [hinv.out_eq, hch.2]
    · rw [hinv.out_eq, hch.2]
      exact (filterMap_toOption_length cfg.res _
        (fun i hi => hok i (List.mem_range.mp hi))).trans (List.length_range _)

/-- Witness for `frames_fail_at_cursor` at the concrete configuration `cfgE`,
    failing index 1, and the empty trace. -/
theorem frames_fail_at_cursor_witness :
    (initState cfgE).sidx ≤ 1
  ∧ (initState cfgE).out
      = (List.range (initState cfgE).sidx).filterMap (fun i => (cfgE.res i).toOption)
  ∧ ((initState cfgE).isDone = false → (initState cfgE).errRaised = none
      ∧ ∃ e s', step cfgE e (initState cfgE) = some s'
          ∧ phi cfgE s' < phi cfgE (initState cfgE))
  ∧ ((initState cfgE).isDone = true → (initState cfgE).errRaised = some () ∧ (initState cfgE).sidx = 1
      ∧ (initState cfgE).out = (List.range 1).filterMap (fun i => (cfgE.res i).toOption)
      ∧ (initState cfgE).out.length = 1) :=
  frames_fail_at_cursor cfgE 1 () (by decide) (by decide) (by decide)
    (fun i hi => by
      have h0 : i = 0 := by omega
      subst h0
      rfl)
    rfl [] (by simp) _ rfl

/-- C3: at every reachable state, the number of submitted-but-not-completed
    computations never exceeds the effective prefetch. -/
theorem frames_concurrency_bound (cfg : Cfg E V) (tr : List Event)
    (s : SchedState E V) (h : run cfg tr = some s) :
    s.running ≤ cfg.prefetch :=
  (run_inv h).run_le

/-- Witness for `frames_concurrency_bound`. -/
theorem frames_concurrency_bound_witness :
    (initState cfgW).running ≤ cfgW.prefetch :=
  frames_concurrency_bound cfgW [] _ rfl

/-- C4: at every reachable state, the size of the reorder buffer never
    exceeds the effective backlog. -/
theorem frames_backlog_bound (cfg : Cfg E V) (tr : List Event)
    (s : SchedState E V) (h : run cfg tr = some s) :
    s.reorder.length ≤ cfg.backlog :=
  (run_inv h).reo_le

/-- Witness for `frames_backlog_bound`. -/
theorem frames_backlog_bound_witness :
    (initState cfgW).reorder.length ≤ cfgW.backlog :=
  frames_backlog_bound cfgW [] _ rfl

/-- C5: once the terminal flag `finished` is set at a reachable state —
    whether by an error completion, exhaustion of the index sequence, or an
    early close — no later step ever submits more work (the submission
    history is frozen), and the flag never clears. -/
theorem frames_no_post_terminal_submission (cfg : Cfg E V) (tr : List Event)
    (s : SchedState E V) (h : run cfg tr = some s) (hfin : s.finished = true)
    (tr' : List Event) (s' : SchedState E V) (h' : runFrom cfg s tr' = some s') :
    s'.subs = s.subs ∧ s'.finished = true :=
  runFrom_subs_frozen hfin h'

/-- Witness for `frames_no_post_terminal_submission` at the empty-clip
    configuration, whose initial state is already terminal, running one
    further consumer step. -/
theorem frames_no_post_terminal_submission_witness :
    ({ initState cfgZ with isDone := true, finished := true } : SchedState Unit Nat).subs
      = (initState cfgZ).subs
    ∧ ({ initState cfgZ with isDone := true, finished := true } : SchedState Unit Nat).finished
      = true :=
  frames_no_post_terminal_submission cfgZ [] _ rfl rfl [Event.consume] _ rfl

/-- C7: over any run, the submission history handed to the work source is
    exactly `0, 1, ..., nextIdx-1`: strictly increasing, each index submitted
    at most once (so an index completing out of order is never re-submitted). -/
theorem frames_submission_order (cfg : Cfg E V) (tr : List Event)
    (s : SchedState E V) (h : run cfg tr = some s) :
    s.subs = List.range s.nextIdx ∧ s.subs.Nodup ∧ List.Pairwise (· < ·) s.subs := by
  have hinv := run_inv h
  refine ⟨hinv.subs_eq, ?_, ?_⟩
  · rw [hinv.subs_eq]; exact List.nodup_range _
  · rw [hinv.subs_eq]; exact List.pairwise_lt_range _

/-- Witness for `frames_submission_order`. -/
theorem frames_submission_order_witness :
    (initState cfgW).subs = List.range (initState cfgW).nextIdx
    ∧ (initState cfgW).subs.Nodup ∧ List.Pairwise (· < ·) (initState cfgW).subs :=
  frames_submission_order cfgW [] _ rfl

/-- C8 counterexample: with a zero-worker source and no prefetch override the
    effective prefetch and backlog are 0; the construction of `frames`
    completes without reporting any error (the initial state records no
    error and nothing was submitted), and the first consumer step is not
    even enabled — it busy-waits forever instead of surfacing an error. -/
theorem frames_zero_workers_no_usage_error :
    normalizePrefetch 0 none = 0
  ∧ normalizeBacklog (normalizePrefetch 0 none) none = 0
  ∧ run cfg0 [] = some (emptySched : SchedState Unit Nat)
  ∧ (emptySched : SchedState Unit Nat).errRaised = none
  ∧ (emptySched : SchedState Unit Nat).subs = []
  ∧ step cfg0 Event.consume (emptySched : SchedState Unit Nat) = none := by
  refine ⟨rfl, rfl, ?_, rfl, rfl, ?_⟩ <;> rfl

/-- C8 (amended): if the work source reports zero workers and no explicit
    prefetch override is given, no invalid-configuration error is reported at
    all — neither at construction nor through `next()`: the effective
    prefetch is 0, nothing is ever submitted, nothing is ever yielded, no
    error is ever raised, and unless the consumer closes the generator it
    never exits (it livelocks in the busy-wait). -/
theorem frames_zero_workers_livelock (cfg : Cfg E V) (hpf : cfg.prefetch = 0)
    (tr : List Event) (s : SchedState E V) (h : run cfg tr = some s) :
    s.subs = [] ∧ s.out = [] ∧ s.errRaised = none
    ∧ (Event.close ∉ tr → s.isDone = false ∧ s.finished = false) := by
  unfold run at h
  rw [initState_zero_prefetch hpf] at h
  rcases runFrom_zero_prefetch hpf tr s h with ⟨h1, h2⟩ | ⟨h1, h2⟩
  · subst h1
    exact ⟨rfl, rfl, rfl, fun _ => ⟨rfl, rfl⟩⟩
  · subst h1
    exact ⟨rfl, rfl, rfl, fun hc => absurd h2 hc⟩

/-- Witness for `frames_zero_workers_livelock` at the concrete zero-worker
    configuration and the empty trace. -/
theorem frames_zero_workers_livelock_witness :
    (emptySched : SchedState Unit Nat).subs = []
    ∧ (emptySched : SchedState Unit Nat).out = []
    ∧ (emptySched : SchedState Unit Nat).errRaised = none
    ∧ (Event.close ∉ ([] : List Event) →
        (emptySched : SchedState Unit Nat).isDone = false
        ∧ (emptySched : SchedState Unit Nat).finished = false) := by
  have h := frames_zero_workers_livelock cfg0 rfl [] (initState cfg0) rfl
  rw [initState_zero_prefetch rfl] at h
  exact h

end GetFnative
